import Mathlib

/-!
Verification of the RAG-Sphere core against its specification.

The development shallowly embeds the parts of the repository the claims
C1..C10 are about:

* `raglib/graphrag/index/G_LeidenAlgorithm.py` — the hierarchical CPM Leiden
  partitioner (claims C1, C2, C3);
* `raglib/utils/file_parsers/RAGSplit.py` — the Markdown chunker (C4);
* `raglib/graphrag/index/KG_2_ConvertTextsToGraph.py` — the KG builder's
  retry loop and relation sanitisation (C5, C7);
* `raglib/graphrag/index/KG_5_CreateCommunitySummaries.py` — the community
  summariser retry loop (C5);
* `raglib/graphrag/query/graphRAG_retriever.py` — the four retrieval
  strategies (C5, C6, C10);
* `raglib/utils/file_parsers/pdfParser.py` — the PNG-predictor decoder (C8);
* `raglib/graphrag/index/KG_1_LoadData.py` and
  `raglib/utils/file_parsers/zipExtractor.py` — the loader traversal (C9).

Modelling conventions.  Python floats are modelled by `ℚ` (the claims are
algebraic, not about rounding).  Python sets and insertion-ordered dicts are
modelled by lists without duplicates; edge dictionaries with a `get(_, 0)`
default are modelled by total weight functions.  Randomness (`shuffle`,
`choices`) is modelled by an explicit oracle threaded through the functions;
every real execution instantiates the oracle.  The probability weights
`exp(Δ/θ)` of the refinement sampler are abstracted to their strict
positivity (`refine_weight` below): no claim depends on the numeric values,
only on which candidates can be drawn.
-/

/-! ## Generic weighted pair sums

`pair_sum lt w c` is the sum of `w a b` over pairs of members of `c` with
`lt b a` — the shape of `count_connecting_edges_in`, which sums
`graph['edges'].get((node1, node2), 0)` over `node1 > node2`.
`cross_sum w c₁ c₂` sums `w a b` over `a ∈ c₁, b ∈ c₂` — the shape of
`count_connecting_edges`.  They are stated over an arbitrary element type so
that they serve both the vertex level (after aggregation) and the leaf level
(the flattened base graph). -/

def pair_sum {α : Type} (lt : α → α → Bool) (w : α → α → ℚ) (c : List α) : ℚ :=
  (c.map (fun a => (c.map (fun b => if lt b a then w a b else 0)).sum)).sum

def cross_sum {α : Type} (w : α → α → ℚ) (c1 c2 : List α) : ℚ :=
  (c1.map (fun a => (c2.map (fun b => w a b)).sum)).sum

theorem cross_sum_nil_left {α : Type} (w : α → α → ℚ) (c : List α) :
    cross_sum w [] c = 0 := rfl

theorem cross_sum_nil_right {α : Type} (w : α → α → ℚ) (c : List α) :
    cross_sum w c [] = 0 := by
  simp [cross_sum]

theorem cross_sum_cons_left {α : Type} (w : α → α → ℚ) (a : α) (c1 c2 : List α) :
    cross_sum w (a :: c1) c2 = (c2.map (fun b => w a b)).sum + cross_sum w c1 c2 := by
  simp [cross_sum]

theorem cross_sum_single_right {α : Type} (w : α → α → ℚ) (c : List α) (v : α) :
    cross_sum w c [v] = (c.map (fun a => w a v)).sum := by
  simp [cross_sum]

theorem cross_sum_append_left {α : Type} (w : α → α → ℚ) (c1 c2 c3 : List α) :
    cross_sum w (c1 ++ c2) c3 = cross_sum w c1 c3 + cross_sum w c2 c3 := by
  simp [cross_sum]

theorem cross_sum_append_right {α : Type} (w : α → α → ℚ) (c1 c2 c3 : List α) :
    cross_sum w c1 (c2 ++ c3) = cross_sum w c1 c2 + cross_sum w c1 c3 := by
  simp [cross_sum, List.sum_map_add]

theorem cross_sum_cons_right {α : Type} (w : α → α → ℚ) (a : α) (c1 c2 : List α) :
    cross_sum w c1 (a :: c2) = (c1.map (fun x => w x a)).sum + cross_sum w c1 c2 := by
  simp [cross_sum, List.sum_map_add]

theorem cross_sum_comm {α : Type} (w : α → α → ℚ)
    (hw : ∀ a b, w a b = w b a) (c1 c2 : List α) :
    cross_sum w c1 c2 = cross_sum w c2 c1 := by
  induction c1 with
  | nil => simp [cross_sum]
  | cons a t ih =>
      rw [cross_sum_cons_left, ih, cross_sum_cons_right]
      congr 1
      exact congrArg List.sum (List.map_congr_left (fun b _ => hw a b))

theorem cross_sum_flatten_left {α : Type} (w : α → α → ℚ) (l : List (List α)) (c : List α) :
    cross_sum w l.flatten c = (l.map (fun u => cross_sum w u c)).sum := by
  induction l with
  | nil => simp [cross_sum]
  | cons u t ih => simp [List.flatten_cons, cross_sum_append_left, ih]

theorem pair_sum_perm {α : Type} (lt : α → α → Bool) (w : α → α → ℚ)
    {c1 c2 : List α} (h : c1.Perm c2) :
    pair_sum lt w c1 = pair_sum lt w c2 := by
  unfold pair_sum
  have inner : ∀ a : α,
      (c1.map (fun b => if lt b a then w a b else 0)).sum
        = (c2.map (fun b => if lt b a then w a b else 0)).sum :=
    fun a => (h.map _).sum_eq
  calc (c1.map (fun a => (c1.map (fun b => if lt b a then w a b else 0)).sum)).sum
      = (c1.map (fun a => (c2.map (fun b => if lt b a then w a b else 0)).sum)).sum := by
        exact congrArg List.sum (List.map_congr_left (fun a _ => inner a))
    _ = (c2.map (fun a => (c2.map (fun b => if lt b a then w a b else 0)).sum)).sum :=
        (h.map _).sum_eq

theorem cross_sum_perm_left {α : Type} (w : α → α → ℚ)
    {c1 c2 : List α} (h : c1.Perm c2) (c : List α) :
    cross_sum w c1 c = cross_sum w c2 c :=
  (h.map _).sum_eq

theorem pair_sum_nil {α : Type} (lt : α → α → Bool) (w : α → α → ℚ) :
    pair_sum lt w [] = 0 := rfl

theorem pair_sum_single {α : Type} (lt : α → α → Bool) (w : α → α → ℚ)
    (hirr : ∀ a, lt a a = false) (v : α) :
    pair_sum lt w [v] = 0 := by
  simp [pair_sum, hirr]

/-- Splitting off one element: for `a` not in `t`, the pairs of `a :: t` are
the pairs of `t` plus, for each `b ∈ t`, the one orientation of `{a, b}` the
strict order keeps; with a symmetric `w` that contributes `w b a`. -/
theorem pair_sum_cons {α : Type} (lt : α → α → Bool) (w : α → α → ℚ)
    (hirr : ∀ a, lt a a = false)
    (htot : ∀ a b, a ≠ b → lt a b = true ∨ lt b a = true)
    (hasy : ∀ a b, lt a b = true → lt b a = false)
    (hw : ∀ a b, w a b = w b a)
    (a : α) (t : List α) (ha : a ∉ t) :
    pair_sum lt w (a :: t) = pair_sum lt w t + cross_sum w t [a] := by
  have key : ∀ b ∈ t,
      (if lt b a then w a b else 0) + (if lt a b then w b a else 0) = w b a := by
    intro b hb
    have hne : a ≠ b := fun h => ha (h ▸ hb)
    rcases htot a b hne with h1 | h1
    · rw [h1, hasy a b h1]
      simp
    · rw [h1, hasy b a h1]
      simp
      exact hw a b
  unfold pair_sum
  simp only [List.map_cons, List.sum_cons, List.sum_map_add]
  have h0 : (if lt a a then w a a else (0:ℚ)) = 0 := by simp [hirr a]
  rw [h0, cross_sum_single_right]
  have h1 : ((t.map fun b => if lt b a then w a b else 0).sum
      + (t.map fun x => if lt a x then w x a else 0).sum)
      = (t.map fun b => w b a).sum := by
    rw [← List.sum_map_add]
    exact congrArg List.sum (List.map_congr_left key)
  linarith [h1]

/-- The removal of one element from a Python set, modelled on duplicate-free
lists: `filter`-based, so no `BEq` instance is involved.  On the lists this
development manipulates (communities and partitions are sets in the source)
it removes exactly the one occurrence. -/
def set_remove {α : Type} [DecidableEq α] (l : List α) (a : α) : List α :=
  l.filter (fun x => ¬ x = a)

theorem not_mem_set_remove {α : Type} [DecidableEq α] (l : List α) (a : α) :
    a ∉ set_remove l a := by
  intro h
  rcases List.mem_filter.1 h with ⟨_, h2⟩
  simp at h2

theorem mem_set_remove_iff {α : Type} [DecidableEq α] {l : List α} {a x : α} :
    x ∈ set_remove l a ↔ x ∈ l ∧ x ≠ a := by
  constructor
  · intro h
    rcases List.mem_filter.1 h with ⟨h1, h2⟩
    exact ⟨h1, by simpa using h2⟩
  · intro ⟨h1, h2⟩
    exact List.mem_filter.2 ⟨h1, by simpa using h2⟩

theorem set_remove_sublist {α : Type} [DecidableEq α] (l : List α) (a : α) :
    (set_remove l a).Sublist l := List.filter_sublist l

theorem set_remove_of_not_mem {α : Type} [DecidableEq α] {l : List α} {a : α}
    (h : a ∉ l) : set_remove l a = l := by
  unfold set_remove
  rw [List.filter_eq_self]
  intro x hx
  have hxa : x ≠ a := fun he => h (he ▸ hx)
  simpa using hxa

theorem set_remove_cons_self {α : Type} [DecidableEq α] {t : List α} {a : α}
    (h : a ∉ t) : set_remove (a :: t) a = t := by
  have h2 : set_remove t a = t := set_remove_of_not_mem h
  unfold set_remove at h2 ⊢
  rw [List.filter_cons]
  simp [h2]
  exact fun x hx he => h (he ▸ hx)

theorem set_remove_cons_ne {α : Type} [DecidableEq α] {t : List α} {a c : α}
    (h : c ≠ a) : set_remove (c :: t) a = c :: set_remove t a := by
  unfold set_remove
  rw [List.filter_cons]
  simp [h]

theorem set_remove_append {α : Type} [DecidableEq α] (l1 l2 : List α) (a : α) :
    set_remove (l1 ++ l2) a = set_remove l1 a ++ set_remove l2 a := by
  unfold set_remove
  exact List.filter_append _ _

/-- On a duplicate-free list, removing a member and putting it back in front
is a permutation. -/
theorem perm_cons_set_remove {α : Type} [DecidableEq α] {l : List α} {a : α}
    (hnd : l.Nodup) (h : a ∈ l) : l.Perm (a :: set_remove l a) := by
  induction l with
  | nil => cases h
  | cons c t ih =>
      by_cases hca : c = a
      · subst hca
        rw [set_remove_cons_self (List.nodup_cons.1 hnd).1]
      · have hat : a ∈ t := (List.mem_cons.1 h).resolve_left (fun h2 => hca h2.symm)
        rw [set_remove_cons_ne hca]
        exact ((ih (List.nodup_cons.1 hnd).2 hat).cons c).trans (List.Perm.swap a c _)

/-- Removing a member: the internal weight of `c` is the internal weight of
the rest plus the weight between the rest and `v`. -/
theorem pair_sum_set_remove {α : Type} [DecidableEq α] (lt : α → α → Bool) (w : α → α → ℚ)
    (hirr : ∀ a, lt a a = false)
    (htot : ∀ a b, a ≠ b → lt a b = true ∨ lt b a = true)
    (hasy : ∀ a b, lt a b = true → lt b a = false)
    (hw : ∀ a b, w a b = w b a)
    (v : α) (c : List α) (hv : v ∈ c) (hc : c.Nodup) :
    pair_sum lt w c = pair_sum lt w (set_remove c v) + cross_sum w (set_remove c v) [v] := by
  have hperm : c.Perm (v :: set_remove c v) := perm_cons_set_remove hc hv
  rw [pair_sum_perm lt w hperm]
  exact pair_sum_cons lt w hirr htot hasy hw v (set_remove c v) (not_mem_set_remove c v)

/-- Pairs of an append split into pairs of each part plus the cross weight. -/
theorem pair_sum_append {α : Type} (lt : α → α → Bool) (w : α → α → ℚ)
    (hirr : ∀ a, lt a a = false)
    (htot : ∀ a b, a ≠ b → lt a b = true ∨ lt b a = true)
    (hasy : ∀ a b, lt a b = true → lt b a = false)
    (hw : ∀ a b, w a b = w b a)
    (c1 c2 : List α) (h : (c1 ++ c2).Nodup) :
    pair_sum lt w (c1 ++ c2) = pair_sum lt w c1 + pair_sum lt w c2 + cross_sum w c1 c2 := by
  induction c1 with
  | nil => simp [pair_sum_nil, cross_sum]
  | cons a t ih =>
      have hnd : (t ++ c2).Nodup := List.Nodup.of_cons h
      have hna : a ∉ t ++ c2 := (List.nodup_cons.1 h).1
      have hat : a ∉ t := fun hx => hna (List.mem_append_left _ hx)
      have hac2 : a ∉ c2 := fun hx => hna (List.mem_append_right _ hx)
      have h1 : pair_sum lt w (a :: (t ++ c2))
          = pair_sum lt w (t ++ c2) + cross_sum w (t ++ c2) [a] :=
        pair_sum_cons lt w hirr htot hasy hw a (t ++ c2) hna
      have hcomm : (c2.map (fun b => w a b)).sum = (c2.map (fun b => w b a)).sum :=
        congrArg List.sum (List.map_congr_left (fun b _ => hw a b))
      rw [List.cons_append, h1, ih hnd, cross_sum_append_left,
        pair_sum_cons lt w hirr htot hasy hw a t hat, cross_sum_cons_left,
        cross_sum_single_right, cross_sum_single_right]
      linarith [hcomm]

/-! ## The Leiden partitioner: data model

`G_LeidenAlgorithm.py` keeps the graph as a vertex set, a symmetric edge
weight dictionary and a connectivity set.  Base vertices are ArangoDB id
strings; after `aggregate_graph` a vertex is the tuple of the base ids it
contains.  Both are modelled by `List ℕ`: a base vertex is a singleton
`[n]`, an aggregated vertex the flat list of its leaf ids — the source's
`flatten` and `get_len` then agree with `List.flatten` and lengths.  The edge
dictionary (symmetric, read through `get(_, 0)`) is a total weight function. -/

abbrev LVertex : Type := List ℕ

abbrev LCommunity : Type := List LVertex

abbrev LPartition : Type := List LCommunity

structure LGraph where
  vertices : List LVertex
  w : LVertex → LVertex → ℚ

/-- Python's `>` on the vertex keys (strings, or tuples of strings):
lexicographic strict order, modelled on the `ℕ`-coded leaf lists. -/
def vlt : List ℕ → List ℕ → Bool
  | [], [] => false
  | [], _ :: _ => true
  | _ :: _, [] => false
  | a :: as, b :: bs => if a < b then true else if b < a then false else vlt as bs

theorem vlt_irrefl : ∀ a : List ℕ, vlt a a = false := by
  intro a
  induction a with
  | nil => rfl
  | cons x t ih => simp [vlt, ih]

theorem vlt_total : ∀ a b : List ℕ, a ≠ b → vlt a b = true ∨ vlt b a = true := by
  intro a
  induction a with
  | nil =>
      intro b hb
      cases b with
      | nil => exact absurd rfl hb
      | cons y bs => left; rfl
  | cons x t ih =>
      intro b hb
      cases b with
      | nil => right; rfl
      | cons y bs =>
          by_cases hxy : x < y
          · left; simp [vlt, hxy]
          · by_cases hyx : y < x
            · right; simp [vlt, hyx]
            · have hxyeq : x = y := Nat.le_antisymm (Nat.le_of_not_lt hyx) (Nat.le_of_not_lt hxy)
              subst hxyeq
              have hts : t ≠ bs := by
                intro h; exact hb (by rw [h])
              rcases ih bs hts with h | h
              · left; simp [vlt, h]
              · right; simp [vlt, h]

theorem vlt_asymm : ∀ a b : List ℕ, vlt a b = true → vlt b a = false := by
  intro a
  induction a with
  | nil =>
      intro b h
      cases b with
      | nil => rfl
      | cons y bs => rfl
  | cons x t ih =>
      intro b h
      cases b with
      | nil => simp [vlt] at h
      | cons y bs =>
          by_cases hxy : x < y
          · simp [vlt, Nat.lt_asymm hxy, hxy]
          · by_cases hyx : y < x
            · simp [vlt, hxy, hyx] at h
            · have hxyeq : x = y := Nat.le_antisymm (Nat.le_of_not_lt hyx) (Nat.le_of_not_lt hxy)
              subst hxyeq
              simp only [vlt, lt_self_iff_false, if_false] at h ⊢
              exact ih bs h

/-- Nat comparison as a Bool, for the leaf-level pair sums. -/
def nlt (a b : ℕ) : Bool := a < b

theorem nlt_irrefl : ∀ a : ℕ, nlt a a = false := by
  intro a; simp [nlt]

theorem nlt_total : ∀ a b : ℕ, a ≠ b → nlt a b = true ∨ nlt b a = true := by
  intro a b h
  rcases Nat.lt_or_ge a b with h1 | h1
  · left; simpa [nlt] using h1
  · right
    have : b < a := Nat.lt_of_le_of_ne h1 (fun hh => h hh.symm)
    simpa [nlt] using this

theorem nlt_asymm : ∀ a b : ℕ, nlt a b = true → nlt b a = false := by
  intro a b h
  simp [nlt] at h ⊢
  omega

/-! ## The Leiden partitioner: source functions -/

/-- Source `get_len` applied to a community (a set of vertices): the number
of leaf ids below it, `sum(1 for _ in flatten(community))`. -/
def get_len (c : LCommunity) : ℕ := (c.map List.length).sum

theorem get_len_eq_length_flatten (c : LCommunity) : get_len c = c.flatten.length := by
  rw [List.length_flatten]; rfl

/-- Source `count_connecting_edges_in(graph, community)`: the sum of
`edges.get((node1, node2), 0)` over members with `node1 > node2`. -/
def count_connecting_edges_in (g : LGraph) (c : LCommunity) : ℚ :=
  pair_sum vlt g.w c

/-- Source `count_connecting_edges(graph, community1, community2)`. -/
def count_connecting_edges (g : LGraph) (c1 c2 : LCommunity) : ℚ :=
  cross_sum g.w c1 c2

/-- Source `get_community_of_node(partition, node)`: the first community
containing the node, or the empty set. -/
def get_community_of_node (p : LPartition) (v : LVertex) : LCommunity :=
  match p with
  | [] => []
  | c :: rest => if v ∈ c then c else get_community_of_node rest v

/-- Source `singleton_partition(graph)`. -/
def singleton_partition (g : LGraph) : LPartition :=
  g.vertices.map (fun v => [v])

/-- Source `constant_potts_model(graph, partition, gamma)`:
`Σ_C in(C) − γ·comb(get_len(C), 2)`. -/
def constant_potts_model (g : LGraph) (p : LPartition) (gamma : ℚ) : ℚ :=
  (p.map (fun c =>
    count_connecting_edges_in g c - gamma * ((get_len c).choose 2 : ℚ))).sum

/-- The inner helper `comb(c, n) = 0.5·n·(1−n) − n·c` of `delta_potts_model`. -/
def delta_comb (c n : ℚ) : ℚ := (1/2) * n * (1 - n) - n * c

/-- Source `delta_potts_model(graph, partition, gamma, changing_node,
node_community, changing_community)`; the `partition` argument is unused in
the source body and dropped here.  `node_community - {changing_node}` is the
set difference `set_remove`. -/
def delta_potts_model (g : LGraph) (gamma : ℚ) (changing_node : LVertex)
    (node_community changing_community : LCommunity) : ℚ :=
  if changing_node ∈ changing_community then 0
  else
    count_connecting_edges g changing_community [changing_node]
    - count_connecting_edges g (set_remove node_community changing_node) [changing_node]
    + gamma * (delta_comb (get_len changing_community : ℚ) (changing_node.length : ℚ)
        - delta_comb (get_len (set_remove node_community changing_node) : ℚ)
            (changing_node.length : ℚ))

/-- The partition update `move_nodes` (and `merge_nodes_subset`) performs when
a node moves: remove the node from its community, drop the community if it
became empty, then add the node to the target community — or append the new
singleton `{node}` when the target is the fresh empty set. -/
def apply_move (p : LPartition) (v : LVertex) (cu ct : LCommunity) : LPartition :=
  let cu2 := set_remove cu v
  let p1 := p.map (fun c => if c = cu then cu2 else c)
  let p2 := if cu2 = [] then set_remove p1 [] else p1
  if ct = [] then p2 ++ [[v]]
  else p2.map (fun c => if c = ct then ct ++ [v] else c)

/-! ## Partition bookkeeping lemmas

A partition is modelled as a list of communities whose concatenation
(`flatten`) has no duplicates — which packages "every vertex is in exactly
one community".  The lemmas below track how `apply_move` reshapes such a
list, up to permutation. -/

theorem flatten_nodup_mem_unique {α : Type} {p : List (List α)}
    (h : p.flatten.Nodup) {c1 c2 : List α} (h1 : c1 ∈ p) (h2 : c2 ∈ p)
    {x : α} (hx1 : x ∈ c1) (hx2 : x ∈ c2) : c1 = c2 := by
  induction p with
  | nil => cases h1
  | cons c t ih =>
      rw [List.flatten_cons] at h
      have hdisj := List.disjoint_of_nodup_append h
      rcases List.mem_cons.1 h1 with rfl | h1t
      · rcases List.mem_cons.1 h2 with rfl | h2t
        · rfl
        · exact (hdisj hx1 (List.mem_flatten.2 ⟨c2, h2t, hx2⟩)).elim
      · rcases List.mem_cons.1 h2 with rfl | h2t
        · exact (hdisj hx2 (List.mem_flatten.2 ⟨c1, h1t, hx1⟩)).elim
        · exact ih h.of_append_right h1t h2t

theorem sublist_flatten_of_mem {α : Type} {p : List (List α)} {c : List α}
    (h : c ∈ p) : c.Sublist p.flatten := by
  induction p with
  | nil => cases h
  | cons d t ih =>
      rw [List.flatten_cons]
      rcases List.mem_cons.1 h with rfl | ht
      · exact List.sublist_append_left c t.flatten
      · exact (ih ht).trans (List.sublist_append_right d t.flatten)

theorem sublist_flatten_mono {α : Type} {l1 l2 : List (List α)}
    (h : l1.Sublist l2) : l1.flatten.Sublist l2.flatten := by
  induction h with
  | slnil => exact List.Sublist.refl _
  | cons a h2 ih =>
      rw [List.flatten_cons]
      exact ih.trans (List.sublist_append_right a _)
  | cons₂ a h2 ih =>
      rw [List.flatten_cons, List.flatten_cons]
      exact List.Sublist.append_left ih a

theorem nodup_of_flatten_nodup {α : Type} {p : List (List α)}
    (h : p.flatten.Nodup) (hne : ∀ c ∈ p, c ≠ []) : p.Nodup := by
  induction p with
  | nil => exact List.nodup_nil
  | cons c t ih =>
      rw [List.flatten_cons] at h
      refine List.nodup_cons.2 ⟨?_, ih h.of_append_right
        (fun d hd => hne d (List.mem_cons_of_mem c hd))⟩
      intro hct
      rcases List.exists_mem_of_ne_nil c (hne c (List.mem_cons_self c t)) with ⟨x, hx⟩
      exact List.disjoint_of_nodup_append h hx (List.mem_flatten.2 ⟨c, hct, hx⟩)

theorem get_community_spec {p : LPartition} {v : LVertex} (h : v ∈ p.flatten) :
    get_community_of_node p v ∈ p ∧ v ∈ get_community_of_node p v := by
  induction p with
  | nil => simp at h
  | cons c t ih =>
      by_cases hv : v ∈ c
      · constructor
        · simp [get_community_of_node, hv]
        · simp [get_community_of_node, hv]
      · rw [List.flatten_cons] at h
        have hvt : v ∈ t.flatten := by
          rcases List.mem_append.1 h with h2 | h2
          · exact absurd h2 hv
          · exact h2
        rcases ih hvt with ⟨hm, hin⟩
        constructor
        · simp only [get_community_of_node, if_neg hv]
          exact List.mem_cons_of_mem c hm
        · simp only [get_community_of_node, if_neg hv]
          exact hin

/-- Updating the single occurrence of a community value in a partition list. -/
theorem map_update_perm {α : Type} [DecidableEq α] {p : List (List α)}
    (hf : p.flatten.Nodup) {b : List α} (hb : b ∈ p) (hbne : b ≠ [])
    (b2 : List α) :
    (p.map (fun c => if c = b then b2 else c)).Perm (b2 :: set_remove p b) := by
  induction p with
  | nil => cases hb
  | cons c t ih =>
      rw [List.flatten_cons] at hf
      by_cases hcb : c = b
      · subst hcb
        have hbt : c ∉ t := by
          intro hbt
          rcases List.exists_mem_of_ne_nil c hbne with ⟨x, hx⟩
          exact List.disjoint_of_nodup_append hf hx (List.mem_flatten.2 ⟨c, hbt, hx⟩)
        have hmap : t.map (fun d => if d = c then b2 else d) = t := by
          rw [List.map_congr_left (fun d hd => if_neg (fun h => hbt (by rw [← h]; exact hd)))]
          exact List.map_id t
        rw [List.map_cons, if_pos rfl, hmap, set_remove_cons_self hbt]
      · have hbt : b ∈ t := (List.mem_cons.1 hb).resolve_left (fun h => hcb h.symm)
        rw [List.map_cons, if_neg hcb, set_remove_cons_ne hcb]
        exact ((ih hf.of_append_right hbt).cons c).trans (List.Perm.swap b2 c _)

theorem get_len_append (c1 c2 : LCommunity) :
    get_len (c1 ++ c2) = get_len c1 + get_len c2 := by
  simp [get_len]

theorem get_len_perm {c1 c2 : LCommunity} (h : c1.Perm c2) : get_len c1 = get_len c2 :=
  (h.map List.length).sum_eq

theorem get_len_cons (v : LVertex) (c : LCommunity) :
    get_len (v :: c) = v.length + get_len c := by
  simp [get_len]

theorem get_len_set_remove {v : LVertex} {c : LCommunity} (h : v ∈ c) (hnd : c.Nodup) :
    get_len c = get_len (set_remove c v) + v.length := by
  have h2 := get_len_perm (perm_cons_set_remove hnd h)
  rw [h2, get_len_cons]
  omega

theorem get_len_single (v : LVertex) : get_len [v] = v.length := by
  simp [get_len]

/-- The cast arithmetic behind the source's optimised `comb` helper:
`comb(c, n)` computes `C(c,2) − C(c+n,2)` over the rationals. -/
theorem delta_comb_choose (a n : ℕ) :
    delta_comb (a : ℚ) (n : ℚ) = ((a.choose 2 : ℕ) : ℚ) - (((a + n).choose 2 : ℕ) : ℚ) := by
  rw [Nat.cast_choose_two, Nat.cast_choose_two, delta_comb]
  push_cast
  ring

theorem perm_swap_append {α : Type} (a b c : List α) :
    (a ++ (b ++ c)).Perm (b ++ (a ++ c)) := by
  have h1 : ((a ++ b) ++ c).Perm ((b ++ a) ++ c) := List.perm_append_comm.append_right c
  rw [List.append_assoc, List.append_assoc] at h1
  exact h1

/-- What a move does to the partition, up to permutation: the target grows by
the node, the source community shrinks (and disappears when emptied), all
other communities survive. -/
theorem apply_move_perm (p : LPartition) (hf : p.flatten.Nodup)
    (hne : ∀ c ∈ p, c ≠ []) (v : LVertex)
    {cu : LCommunity} (hcu : cu ∈ p) (hvcu : v ∈ cu)
    {ct : LCommunity} (hct : ct ∈ p ∨ ct = []) (hvct : v ∉ ct) :
    (apply_move p v cu ct).Perm
      ((if ct = [] then [[v]] else [ct ++ [v]])
        ++ (if set_remove cu v = [] then [] else [set_remove cu v])
        ++ (if ct = [] then set_remove p cu else set_remove (set_remove p cu) ct)) := by
  have hcune : cu ≠ [] := fun h => by rw [h] at hvcu; cases hvcu
  have hp1 : (p.map (fun c => if c = cu then set_remove cu v else c)).Perm
      (set_remove cu v :: set_remove p cu) := map_update_perm hf hcu hcune _
  have hnomem : ([] : LCommunity) ∉ set_remove p cu := by
    intro hmem
    exact hne [] ((set_remove_sublist p cu).mem hmem) rfl
  have hp2 : (if set_remove cu v = [] then
        set_remove (p.map (fun c => if c = cu then set_remove cu v else c)) []
      else (p.map (fun c => if c = cu then set_remove cu v else c))).Perm
      ((if set_remove cu v = [] then [] else [set_remove cu v]) ++ set_remove p cu) := by
    by_cases h2 : set_remove cu v = []
    · simp only [if_pos h2, List.nil_append]
      have hstep := hp1.filter (fun x => ¬ x = ([] : LCommunity))
      have hkey : set_remove (set_remove cu v :: set_remove p cu) ([] : LCommunity)
          = set_remove p cu := by
        rw [h2]
        exact set_remove_cons_self hnomem
      have : set_remove (p.map (fun c => if c = cu then set_remove cu v else c)) []
          = (p.map (fun c => if c = cu then set_remove cu v else c)).filter
            (fun x => ¬ x = ([] : LCommunity)) := rfl
      rw [this]
      have hkey2 : (set_remove cu v :: set_remove p cu).filter
          (fun x => ¬ x = ([] : LCommunity)) = set_remove p cu := hkey
      rw [← hkey2]
      exact hstep
    · simp only [if_neg h2]
      exact hp1
  by_cases hctnil : ct = []
  · subst hctnil
    simp only [apply_move, if_pos rfl]
    refine List.perm_append_comm.trans ?_
    exact hp2.append_left [[v]]
  · have hctm : ct ∈ p := hct.resolve_right hctnil
    have hcuct : cu ≠ ct := fun h => hvct (h ▸ hvcu)
    have hcterase : ct ∈ set_remove p cu :=
      mem_set_remove_iff.2 ⟨hctm, fun h => hcuct h.symm⟩
    have hctp2 : ct ∈ ((if set_remove cu v = [] then [] else [set_remove cu v])
        ++ set_remove p cu) :=
      List.mem_append_right _ hcterase
    have hctcu2 : ct ≠ set_remove cu v := by
      intro h
      by_cases h2 : set_remove cu v = []
      · exact hctnil (h.trans h2)
      · rcases List.exists_mem_of_ne_nil (set_remove cu v) h2 with ⟨x, hx⟩
        have hxcu : x ∈ cu := (set_remove_sublist cu v).mem hx
        have hxct : x ∈ ct := by rw [h]; exact hx
        exact hcuct (flatten_nodup_mem_unique hf hcu hctm hxcu hxct)
    have hE : (set_remove cu v ++ (set_remove p cu).flatten).Nodup := by
      have hpc : p.Perm (cu :: set_remove p cu) :=
        perm_cons_set_remove (nodup_of_flatten_nodup hf hne) hcu
      have hflat : p.flatten.Perm (cu ++ (set_remove p cu).flatten) := by
        have := hpc.flatten
        rwa [List.flatten_cons] at this
      have hcunodup : cu.Nodup := (sublist_flatten_of_mem hcu).nodup hf
      have hcu2 : cu.Perm (v :: set_remove cu v) := perm_cons_set_remove hcunodup hvcu
      have hall : p.flatten.Perm (v :: (set_remove cu v ++ (set_remove p cu).flatten)) := by
        refine hflat.trans ?_
        have := hcu2.append_right ((set_remove p cu).flatten)
        exact this
      exact ((hall.nodup_iff).1 hf).of_cons
    have hp2flat : ((if set_remove cu v = [] then [] else [set_remove cu v])
        ++ set_remove p cu).flatten.Nodup := by
      rw [List.flatten_append]
      by_cases h2 : set_remove cu v = []
      · simp only [if_pos h2]
        rw [h2] at hE
        simpa using hE
      · simp only [if_neg h2]
        simpa using hE
    have hp2nodup : (if set_remove cu v = [] then
        set_remove (p.map (fun c => if c = cu then set_remove cu v else c)) []
      else (p.map (fun c => if c = cu then set_remove cu v else c))).flatten.Nodup :=
      ((hp2.flatten).nodup_iff).2 hp2flat
    have hctp2m : ct ∈ (if set_remove cu v = [] then
        set_remove (p.map (fun c => if c = cu then set_remove cu v else c)) []
      else (p.map (fun c => if c = cu then set_remove cu v else c))) :=
      (hp2.mem_iff).2 hctp2
    have hupd := map_update_perm hp2nodup hctp2m hctnil (ct ++ [v])
    simp only [apply_move, if_neg hctnil]
    refine hupd.trans ?_
    have herase2 : set_remove ((if set_remove cu v = [] then [] else [set_remove cu v])
        ++ set_remove p cu) ct
        = (if set_remove cu v = [] then [] else [set_remove cu v])
          ++ set_remove (set_remove p cu) ct := by
      rw [set_remove_append]
      by_cases h2 : set_remove cu v = []
      · simp only [if_pos h2]
        rfl
      · simp only [if_neg h2]
        congr 1
        rw [set_remove_of_not_mem]
        intro hmem
        exact hctcu2 (List.mem_singleton.1 hmem)
    have hrest := hp2.filter (fun x => ¬ x = ct)
    have hrest2 : (set_remove (if set_remove cu v = [] then
        set_remove (p.map (fun c => if c = cu then set_remove cu v else c)) []
      else (p.map (fun c => if c = cu then set_remove cu v else c))) ct).Perm
        ((if set_remove cu v = [] then [] else [set_remove cu v])
          ++ set_remove (set_remove p cu) ct) := by
      rw [← herase2]
      exact hrest
    exact hrest2.cons (ct ++ [v])

theorem flatten_set_remove_perm {α : Type} [DecidableEq α] {p : List (List α)}
    (hnd : p.Nodup) {c : List α} (hc : c ∈ p) :
    p.flatten.Perm (c ++ (set_remove p c).flatten) := by
  have := (perm_cons_set_remove hnd hc).flatten
  rwa [List.flatten_cons] at this


/-- A move only rearranges the vertices: the flattened partition is unchanged
up to permutation. -/
theorem apply_move_flatten_perm (p : LPartition) (hf : p.flatten.Nodup)
    (hne : ∀ c ∈ p, c ≠ []) (v : LVertex)
    {cu : LCommunity} (hcu : cu ∈ p) (hvcu : v ∈ cu)
    {ct : LCommunity} (hct : ct ∈ p ∨ ct = []) (hvct : v ∉ ct) :
    (apply_move p v cu ct).flatten.Perm p.flatten := by
  have hmain := (apply_move_perm p hf hne v hcu hvcu hct hvct).flatten
  refine hmain.trans ?_
  rw [List.flatten_append, List.flatten_append]
  have hpnd : p.Nodup := nodup_of_flatten_nodup hf hne
  have hcund : cu.Nodup := (sublist_flatten_of_mem hcu).nodup hf
  have hpflat : p.flatten.Perm (cu ++ (set_remove p cu).flatten) :=
    flatten_set_remove_perm hpnd hcu
  have hcuperm : cu.Perm (v :: set_remove cu v) := perm_cons_set_remove hcund hvcu
  have hBflat : (if set_remove cu v = [] then ([] : LPartition)
      else [set_remove cu v]).flatten = set_remove cu v := by
    by_cases h2 : set_remove cu v = []
    · simp [if_pos h2, h2]
    · simp [if_neg h2]
  rw [hBflat]
  by_cases hctnil : ct = []
  · simp only [if_pos hctnil]
    have hgoal : p.flatten.Perm
        (([v] ++ set_remove cu v) ++ (set_remove p cu).flatten) :=
      hpflat.trans (hcuperm.append_right _)
    have hshape : [[v]].flatten ++ set_remove cu v ++ (set_remove p cu).flatten
        = ([v] ++ set_remove cu v) ++ (set_remove p cu).flatten := by
      simp
    rw [hshape]
    exact hgoal.symm
  · simp only [if_neg hctnil]
    have hctm : ct ∈ p := hct.resolve_right hctnil
    have hcuct : cu ≠ ct := fun h2 => hvct (h2 ▸ hvcu)
    have hcterase : ct ∈ set_remove p cu :=
      mem_set_remove_iff.2 ⟨hctm, fun h2 => hcuct h2.symm⟩
    have hsprcnd : (set_remove p cu).Nodup := (set_remove_sublist p cu).nodup hpnd
    have hflat2 : (set_remove p cu).flatten.Perm
        (ct ++ (set_remove (set_remove p cu) ct).flatten) :=
      flatten_set_remove_perm hsprcnd hcterase
    have hp3 : p.flatten.Perm
        ((v :: set_remove cu v) ++ (ct ++ (set_remove (set_remove p cu) ct).flatten)) :=
      hpflat.trans (hcuperm.append hflat2)
    have hshape : [ct ++ [v]].flatten ++ set_remove cu v
        ++ (set_remove (set_remove p cu) ct).flatten
        = ((ct ++ [v]) ++ set_remove cu v)
          ++ (set_remove (set_remove p cu) ct).flatten := by
      simp
    rw [hshape]
    have hstep1 : (((ct ++ [v]) ++ set_remove cu v)
        ++ (set_remove (set_remove p cu) ct).flatten).Perm
        ((([v] ++ ct) ++ set_remove cu v)
          ++ (set_remove (set_remove p cu) ct).flatten) := by
      refine List.Perm.append_right _ ?_
      exact List.Perm.append_right _ List.perm_append_comm
    refine hstep1.trans ?_
    have hshape2 : (([v] ++ ct) ++ set_remove cu v)
        ++ (set_remove (set_remove p cu) ct).flatten
        = v :: (ct ++ (set_remove cu v
          ++ (set_remove (set_remove p cu) ct).flatten)) := by
      simp
    rw [hshape2]
    have hstep2 : (ct ++ (set_remove cu v
        ++ (set_remove (set_remove p cu) ct).flatten)).Perm
        (set_remove cu v ++ (ct ++ (set_remove (set_remove p cu) ct).flatten)) :=
      perm_swap_append ct (set_remove cu v) _
    exact (hstep2.cons v).trans hp3.symm

/-- Where the communities of a moved partition come from. -/
theorem apply_move_mem (p : LPartition) (hf : p.flatten.Nodup)
    (hne : ∀ c ∈ p, c ≠ []) (v : LVertex)
    {cu : LCommunity} (hcu : cu ∈ p) (hvcu : v ∈ cu)
    {ct : LCommunity} (hct : ct ∈ p ∨ ct = []) (hvct : v ∉ ct) :
    ∀ c ∈ apply_move p v cu ct,
      c = (if ct = [] then [v] else ct ++ [v])
      ∨ (c = set_remove cu v ∧ set_remove cu v ≠ [])
      ∨ c ∈ p := by
  intro c hc
  have hmem := (apply_move_perm p hf hne v hcu hvcu hct hvct).mem_iff.1 hc
  rcases List.mem_append.1 hmem with h1 | h1
  · rcases List.mem_append.1 h1 with h2 | h2
    · left
      by_cases hctnil : ct = []
      · rw [if_pos hctnil] at h2 ⊢
        exact List.mem_singleton.1 h2
      · rw [if_neg hctnil] at h2 ⊢
        exact List.mem_singleton.1 h2
    · right; left
      by_cases hcu2 : set_remove cu v = []
      · rw [if_pos hcu2] at h2
        cases h2
      · rw [if_neg hcu2] at h2
        exact ⟨List.mem_singleton.1 h2, hcu2⟩
  · right; right
    by_cases hctnil : ct = []
    · rw [if_pos hctnil] at h1
      exact (set_remove_sublist p cu).mem h1
    · rw [if_neg hctnil] at h1
      exact (set_remove_sublist p cu).mem ((set_remove_sublist _ ct).mem h1)

/-- A move keeps every community non-empty. -/
theorem apply_move_nonempty (p : LPartition) (hf : p.flatten.Nodup)
    (hne : ∀ c ∈ p, c ≠ []) (v : LVertex)
    {cu : LCommunity} (hcu : cu ∈ p) (hvcu : v ∈ cu)
    {ct : LCommunity} (hct : ct ∈ p ∨ ct = []) (hvct : v ∉ ct) :
    ∀ c ∈ apply_move p v cu ct, c ≠ [] := by
  intro c hc
  rcases apply_move_mem p hf hne v hcu hvcu hct hvct c hc with h | h | h
  · by_cases hctnil : ct = []
    · rw [if_pos hctnil] at h
      rw [h]; simp
    · rw [if_neg hctnil] at h
      rw [h]; simp
  · rw [h.1]; exact h.2
  · exact hne c h

/-- The heart of C1 and C2: `delta_potts_model` computes exactly the change
the move makes to `constant_potts_model`. -/
theorem cpm_apply_move (g : LGraph) (hgw : ∀ a b, g.w a b = g.w b a) (gamma : ℚ)
    (p : LPartition) (hf : p.flatten.Nodup) (hne : ∀ c ∈ p, c ≠ [])
    (v : LVertex) (hv : v ∈ p.flatten)
    (ct : LCommunity) (hct : ct ∈ p ∨ ct = []) (hvct : v ∉ ct) :
    constant_potts_model g (apply_move p v (get_community_of_node p v) ct) gamma
      = constant_potts_model g p gamma
        + delta_potts_model g gamma v (get_community_of_node p v) ct := by
  obtain ⟨hcu, hvcu⟩ := get_community_spec hv
  set cu := get_community_of_node p v with hcudef
  set F : LCommunity → ℚ := fun c =>
    count_connecting_edges_in g c - gamma * ((get_len c).choose 2 : ℚ) with hFdef
  have cpm_def : ∀ q : LPartition, constant_potts_model g q gamma = (q.map F).sum :=
    fun q => rfl
  have hF0 : F [] = 0 := by
    simp [hFdef, count_connecting_edges_in, pair_sum_nil, get_len]
  have hpnd : p.Nodup := nodup_of_flatten_nodup hf hne
  have hcund : cu.Nodup := (sublist_flatten_of_mem hcu).nodup hf
  have hperm := apply_move_perm p hf hne v hcu hvcu hct hvct
  have hsum1 : constant_potts_model g (apply_move p v cu ct) gamma
      = ((if ct = [] then [[v]] else [ct ++ [v]]).map F).sum
        + ((if set_remove cu v = [] then [] else [set_remove cu v]).map F).sum
        + ((if ct = [] then set_remove p cu
            else set_remove (set_remove p cu) ct).map F).sum := by
    rw [cpm_def, (hperm.map F).sum_eq]
    rw [List.map_append, List.map_append, List.sum_append, List.sum_append]
  have hB : ((if set_remove cu v = [] then ([] : LPartition)
      else [set_remove cu v]).map F).sum = F (set_remove cu v) := by
    by_cases h2 : set_remove cu v = []
    · rw [if_pos h2, h2, hF0]; rfl
    · rw [if_neg h2]; simp
  -- the split of pair sums and sizes at the source community
  have hpaircu : count_connecting_edges_in g cu
      = count_connecting_edges_in g (set_remove cu v)
        + cross_sum g.w (set_remove cu v) [v] := by
    unfold count_connecting_edges_in
    exact pair_sum_set_remove vlt g.w vlt_irrefl vlt_total vlt_asymm hgw v cu hvcu hcund
  have hlencu : get_len cu = get_len (set_remove cu v) + v.length :=
    get_len_set_remove hvcu hcund
  have hFv : F [v] = - (gamma * ((v.length.choose 2 : ℕ) : ℚ)) := by
    simp [hFdef, count_connecting_edges_in, pair_sum_single vlt g.w vlt_irrefl,
      get_len_single]
  have hchoose : ∀ a n : ℕ, (((a + n).choose 2 : ℕ) : ℚ)
      = ((a.choose 2 : ℕ) : ℚ) + (a : ℚ) * (n : ℚ) + ((n.choose 2 : ℕ) : ℚ) := by
    intro a n
    rw [Nat.cast_choose_two, Nat.cast_choose_two, Nat.cast_choose_two]
    push_cast
    ring
  by_cases hctnil : ct = []
  · -- moving into a fresh singleton community
    subst hctnil
    have hsum2 : constant_potts_model g p gamma
        = F cu + ((set_remove p cu).map F).sum := by
      rw [cpm_def, ((perm_cons_set_remove hpnd hcu).map F).sum_eq]
      simp
    rw [hsum1, hsum2]
    simp only [if_pos rfl, if_true]
    rw [hB]
    have hdelta : delta_potts_model g gamma v cu [] =
        - cross_sum g.w (set_remove cu v) [v]
        + gamma * (delta_comb ((get_len ([] : LCommunity)) : ℚ) (v.length : ℚ)
            - delta_comb ((get_len (set_remove cu v)) : ℚ) (v.length : ℚ)) := by
      rw [delta_potts_model, if_neg hvct]
      unfold count_connecting_edges
      rw [cross_sum_nil_left]
      ring
    rw [hdelta]
    have hdc1 : delta_comb ((get_len ([] : LCommunity)) : ℚ) (v.length : ℚ)
        = ((Nat.choose 0 2 : ℕ) : ℚ) - (((0 + v.length).choose 2 : ℕ) : ℚ) := by
      have : get_len ([] : LCommunity) = 0 := rfl
      rw [this]
      exact delta_comb_choose 0 v.length
    have hdc2 : delta_comb ((get_len (set_remove cu v)) : ℚ) (v.length : ℚ)
        = (((get_len (set_remove cu v)).choose 2 : ℕ) : ℚ)
          - (((get_len (set_remove cu v) + v.length).choose 2 : ℕ) : ℚ) :=
      delta_comb_choose _ _
    rw [hdc1, hdc2]
    have hA : (([[v]] : LPartition).map F).sum = F [v] := by simp
    have hFcu : F cu = count_connecting_edges_in g (set_remove cu v)
        + cross_sum g.w (set_remove cu v) [v]
        - gamma * (((get_len (set_remove cu v) + v.length).choose 2 : ℕ) : ℚ) := by
      simp only [hFdef]
      rw [hpaircu, hlencu]
    have hFcu2 : F (set_remove cu v) = count_connecting_edges_in g (set_remove cu v)
        - gamma * (((get_len (set_remove cu v)).choose 2 : ℕ) : ℚ) := rfl
    rw [hA, hFv, hFcu, hFcu2]
    have hz : ((Nat.choose 0 2 : ℕ) : ℚ) = 0 := by norm_num
    rw [hchoose 0 v.length]
    rw [hz]
    push_cast
    ring
  · -- moving into an existing community
    have hctm : ct ∈ p := hct.resolve_right hctnil
    have hcuct : cu ≠ ct := fun h2 => hvct (h2 ▸ hvcu)
    have hcterase : ct ∈ set_remove p cu :=
      mem_set_remove_iff.2 ⟨hctm, fun h2 => hcuct h2.symm⟩
    have hsprcnd : (set_remove p cu).Nodup := (set_remove_sublist p cu).nodup hpnd
    have hctnd : ct.Nodup := (sublist_flatten_of_mem hctm).nodup hf
    have happnd : (ct ++ [v]).Nodup := by
      rw [List.nodup_append]
      refine ⟨hctnd, List.nodup_singleton v, ?_⟩
      intro x hx hx2
      rw [List.mem_singleton.1 hx2] at hx
      exact hvct hx
    have hsum2 : constant_potts_model g p gamma
        = F cu + (F ct + ((set_remove (set_remove p cu) ct).map F).sum) := by
      rw [cpm_def, ((perm_cons_set_remove hpnd hcu).map F).sum_eq]
      simp only [List.map_cons, List.sum_cons]
      rw [((perm_cons_set_remove hsprcnd hcterase).map F).sum_eq]
      simp
    rw [hsum1, hsum2]
    simp only [if_neg hctnil]
    rw [hB]
    have hpairapp : count_connecting_edges_in g (ct ++ [v])
        = count_connecting_edges_in g ct + cross_sum g.w ct [v] := by
      unfold count_connecting_edges_in
      rw [pair_sum_append vlt g.w vlt_irrefl vlt_total vlt_asymm hgw ct [v] happnd,
        pair_sum_single vlt g.w vlt_irrefl]
      ring
    have hlenapp : get_len (ct ++ [v]) = get_len ct + v.length := by
      rw [get_len_append, get_len_single]
    have hdelta : delta_potts_model g gamma v cu ct =
        cross_sum g.w ct [v]
        - cross_sum g.w (set_remove cu v) [v]
        + gamma * (delta_comb ((get_len ct) : ℚ) (v.length : ℚ)
            - delta_comb ((get_len (set_remove cu v)) : ℚ) (v.length : ℚ)) := by
      rw [delta_potts_model, if_neg hvct]
      rfl
    rw [hdelta, delta_comb_choose, delta_comb_choose]
    have hFapp : F (ct ++ [v]) = count_connecting_edges_in g ct + cross_sum g.w ct [v]
        - gamma * (((get_len ct + v.length).choose 2 : ℕ) : ℚ) := by
      simp only [hFdef]
      rw [hpairapp, hlenapp]
    have hFcu : F cu = count_connecting_edges_in g (set_remove cu v)
        + cross_sum g.w (set_remove cu v) [v]
        - gamma * (((get_len (set_remove cu v) + v.length).choose 2 : ℕ) : ℚ) := by
      simp only [hFdef]
      rw [hpaircu, hlencu]
    have hFcu2 : F (set_remove cu v) = count_connecting_edges_in g (set_remove cu v)
        - gamma * (((get_len (set_remove cu v)).choose 2 : ℕ) : ℚ) := rfl
    have hFct : F ct = count_connecting_edges_in g ct
        - gamma * (((get_len ct).choose 2 : ℕ) : ℚ) := rfl
    simp only [List.map_cons, List.map_nil, List.sum_cons, List.sum_nil]
    rw [hFapp, hFcu, hFcu2, hFct, hchoose (get_len ct) v.length,
      hchoose (get_len (set_remove cu v)) v.length]
    ring

/-! ## `move_nodes`: the local move loop

The queue discipline of the source (`shuffle`, `pop` from the end, a `set`
of nodes to revisit) is embedded exactly, with the shuffles delegated to an
oracle.  A drained queue is a left fold over the reversed list; the
revisit set is an insertion-ordered duplicate-free list. -/

/-- Source `get_graph_neighbors(graph, node)`: the vertices `u` with
`(node, u)` in `edge_connections`.  In the weight-function model a key is
present exactly when its weight is non-zero (the pipeline's weights are
positive counts, and `aggregate_graph` only keeps sums `> 0`). -/
def get_graph_neighbors (g : LGraph) (v : LVertex) : List LVertex :=
  g.vertices.filter (fun u => ¬ g.w v u = 0)

/-- `set.add` on an insertion-ordered duplicate-free list. -/
def dedup_insert (l : List LVertex) (a : LVertex) : List LVertex :=
  if a ∈ l then l else l ++ [a]

/-- The random choices of the partitioner (`random.shuffle` and
`random.choices`), threaded explicitly: `reorder` permutes a queue, `pick`
draws an index from a weighted candidate list.  A fixed seed makes both
deterministic functions of their arguments, which is what this oracle is. -/
structure LeidenOracle where
  reorder : List LVertex → List LVertex
  pick : List LCommunity → List ℚ → ℕ

/-- The best-target scan of `move_nodes`: start from the empty-set candidate
when separating is a strict improvement, then keep the first community that
strictly beats the running best. -/
def best_move (g : LGraph) (gamma : ℚ) (p : LPartition) (v : LVertex)
    (cu : LCommunity) : ℚ × LCommunity :=
  p.foldl (fun acc c =>
      if delta_potts_model g gamma v cu c > acc.1
      then (delta_potts_model g gamma v cu c, c) else acc)
    (if delta_potts_model g gamma v cu [] > 0
     then (delta_potts_model g gamma v cu [], ([] : LCommunity)) else (0, []))

/-- Processing one popped node: apply the best move when it strictly
improves the Constant Potts Model; returns the new partition and the
neighbours to push into the revisit set (those outside the new community;
when the node went to a fresh singleton the tested set is the still-empty
`max_community`, so every neighbour is pushed). -/
def move_step (g : LGraph) (gamma : ℚ) (p : LPartition) (v : LVertex) :
    LPartition × List LVertex :=
  let cu := get_community_of_node p v
  let best := best_move g gamma p v cu
  if best.1 > 0 then
    (apply_move p v cu best.2,
     (get_graph_neighbors g v).filter
       (fun u => ¬ u ∈ (if best.2 = [] then ([] : LCommunity) else best.2 ++ [v])))
  else (p, [])

def move_queue_step (g : LGraph) (gamma : ℚ) (st : LPartition × List LVertex)
    (v : LVertex) : LPartition × List LVertex :=
  let r := move_step g gamma st.1 v
  (r.1, r.2.foldl dedup_insert st.2)

/-- Draining `node_queue`: `pop()` takes the last element, so the processing
order is the reverse of the queue list. -/
def move_nodes_drain (g : LGraph) (gamma : ℚ) (queue : List LVertex)
    (p : LPartition) : LPartition × List LVertex :=
  queue.reverse.foldl (move_queue_step g gamma) (p, [])

/-- The outer `while True` of `move_nodes`: drain, then either stop (empty
revisit set) or reshuffle the revisit set into a fresh queue.  `fuel` bounds
the number of refills. -/
def move_nodes_loop (o : LeidenOracle) (g : LGraph) (gamma : ℚ) :
    ℕ → List LVertex → LPartition → LPartition
  | 0, _, p => p
  | fuel + 1, queue, p =>
      let r := move_nodes_drain g gamma queue p
      if r.2 = [] then r.1 else move_nodes_loop o g gamma fuel (o.reorder r.2) r.1

/-- Source `move_nodes(graph, partition, gamma)`: queue all vertices in a
random permutation and run the loop. -/
def move_nodes (o : LeidenOracle) (fuel : ℕ) (g : LGraph) (p : LPartition)
    (gamma : ℚ) : LPartition :=
  move_nodes_loop o g gamma fuel (o.reorder g.vertices) p

/-- The partition invariant `move_nodes` maintains: the communities cover
the graph's vertex list exactly (up to order) and none is empty. -/
def LPartitionInv (g : LGraph) (p : LPartition) : Prop :=
  p.flatten.Perm g.vertices ∧ ∀ c ∈ p, c ≠ []

theorem best_move_spec (g : LGraph) (gamma : ℚ) (p : LPartition) (v : LVertex)
    (cu : LCommunity) :
    0 ≤ (best_move g gamma p v cu).1
    ∧ ((best_move g gamma p v cu).2 ∈ p ∨ (best_move g gamma p v cu).2 = [])
    ∧ (0 < (best_move g gamma p v cu).1 →
        (best_move g gamma p v cu).1
          = delta_potts_model g gamma v cu (best_move g gamma p v cu).2) := by
  have aux : ∀ (l : List LCommunity) (acc : ℚ × LCommunity),
      (∀ c ∈ l, c ∈ p) →
      (0 ≤ acc.1 ∧ (acc.2 ∈ p ∨ acc.2 = [])
        ∧ (0 < acc.1 → acc.1 = delta_potts_model g gamma v cu acc.2)) →
      (0 ≤ (l.foldl (fun acc c =>
          if delta_potts_model g gamma v cu c > acc.1
          then (delta_potts_model g gamma v cu c, c) else acc) acc).1
      ∧ ((l.foldl (fun acc c =>
          if delta_potts_model g gamma v cu c > acc.1
          then (delta_potts_model g gamma v cu c, c) else acc) acc).2 ∈ p
        ∨ (l.foldl (fun acc c =>
          if delta_potts_model g gamma v cu c > acc.1
          then (delta_potts_model g gamma v cu c, c) else acc) acc).2 = [])
      ∧ (0 < (l.foldl (fun acc c =>
          if delta_potts_model g gamma v cu c > acc.1
          then (delta_potts_model g gamma v cu c, c) else acc) acc).1 →
          (l.foldl (fun acc c =>
          if delta_potts_model g gamma v cu c > acc.1
          then (delta_potts_model g gamma v cu c, c) else acc) acc).1
          = delta_potts_model g gamma v cu (l.foldl (fun acc c =>
          if delta_potts_model g gamma v cu c > acc.1
          then (delta_potts_model g gamma v cu c, c) else acc) acc).2)) := by
    intro l
    induction l with
    | nil => intro acc _ hacc; exact hacc
    | cons c t ih =>
        intro acc hmem hacc
        simp only [List.foldl_cons]
        by_cases hgt : delta_potts_model g gamma v cu c > acc.1
        · rw [if_pos hgt]
          refine ih _ (fun d hd => hmem d (List.mem_cons_of_mem c hd)) ?_
          refine ⟨le_of_lt (lt_of_le_of_lt hacc.1 hgt), Or.inl (hmem c (List.mem_cons_self c t)), ?_⟩
          intro _; rfl
        · rw [if_neg hgt]
          exact ih _ (fun d hd => hmem d (List.mem_cons_of_mem c hd)) hacc
  unfold best_move
  apply aux p _ (fun c hc => hc)
  by_cases h0 : delta_potts_model g gamma v cu [] > 0
  · rw [if_pos h0]
    exact ⟨le_of_lt h0, Or.inr rfl, fun _ => rfl⟩
  · rw [if_neg h0]
    exact ⟨le_refl 0, Or.inr rfl, fun h => absurd h (by simp)⟩

/-- One processed node never decreases the Constant Potts Model and keeps
the partition invariant. -/
theorem move_step_inv (g : LGraph) (hgw : ∀ a b, g.w a b = g.w b a) (gamma : ℚ)
    (hgnd : g.vertices.Nodup) (p : LPartition) (hinv : LPartitionInv g p)
    (v : LVertex) (hv : v ∈ g.vertices) :
    LPartitionInv g (move_step g gamma p v).1
    ∧ constant_potts_model g p gamma
        ≤ constant_potts_model g (move_step g gamma p v).1 gamma := by
  have hvp : v ∈ p.flatten := (hinv.1.mem_iff).2 hv
  have hfnd : p.flatten.Nodup := (hinv.1.nodup_iff).2 hgnd
  obtain ⟨hcu, hvcu⟩ := get_community_spec hvp
  unfold move_step
  by_cases hb : (best_move g gamma p v (get_community_of_node p v)).1 > 0
  · rw [if_pos hb]
    obtain ⟨_, hmem, hval⟩ := best_move_spec g gamma p v (get_community_of_node p v)
    have hd := hval hb
    have hvnotin : v ∉ (best_move g gamma p v (get_community_of_node p v)).2 := by
      intro hvin
      rw [delta_potts_model, if_pos hvin] at hd
      rw [hd] at hb
      exact absurd hb (by simp)
    have heq := cpm_apply_move g hgw gamma p hfnd hinv.2 v hvp
      (best_move g gamma p v (get_community_of_node p v)).2 hmem hvnotin
    constructor
    · constructor
      · exact (apply_move_flatten_perm p hfnd hinv.2 v hcu hvcu hmem hvnotin).trans hinv.1
      · exact apply_move_nonempty p hfnd hinv.2 v hcu hvcu hmem hvnotin
    · rw [heq, ← hd]
      linarith
  · rw [if_neg hb]
    exact ⟨hinv, le_refl _⟩

theorem dedup_insert_subset {V : List LVertex} {l : List LVertex}
    (hl : ∀ u ∈ l, u ∈ V) {adds : List LVertex} (hadds : ∀ u ∈ adds, u ∈ V) :
    ∀ u ∈ adds.foldl dedup_insert l, u ∈ V := by
  induction adds generalizing l with
  | nil => exact fun u hu => hl u hu
  | cons a t ih =>
      intro u hu
      simp only [List.foldl_cons] at hu
      refine ih ?_ (fun x hx => hadds x (List.mem_cons_of_mem a hx)) u hu
      intro x hx
      unfold dedup_insert at hx
      by_cases hmem : a ∈ l
      · rw [if_pos hmem] at hx
        exact hl x hx
      · rw [if_neg hmem] at hx
        rcases List.mem_append.1 hx with h | h
        · exact hl x h
        · rw [List.mem_singleton.1 h]
          exact hadds a (List.mem_cons_self a t)

theorem move_queue_step_inv (g : LGraph) (hgw : ∀ a b, g.w a b = g.w b a)
    (gamma : ℚ) (hgnd : g.vertices.Nodup)
    (st : LPartition × List LVertex) (hinv : LPartitionInv g st.1)
    (hnext : ∀ u ∈ st.2, u ∈ g.vertices)
    (v : LVertex) (hv : v ∈ g.vertices) :
    LPartitionInv g (move_queue_step g gamma st v).1
    ∧ constant_potts_model g st.1 gamma
        ≤ constant_potts_model g (move_queue_step g gamma st v).1 gamma
    ∧ ∀ u ∈ (move_queue_step g gamma st v).2, u ∈ g.vertices := by
  obtain ⟨h1, h2⟩ := move_step_inv g hgw gamma hgnd st.1 hinv v hv
  refine ⟨h1, h2, ?_⟩
  unfold move_queue_step
  refine dedup_insert_subset hnext ?_
  intro u hu
  unfold move_step at hu
  by_cases hb : (best_move g gamma st.1 v (get_community_of_node st.1 v)).1 > 0
  · rw [if_pos hb] at hu
    simp only at hu
    have := List.mem_of_mem_filter hu
    exact List.mem_of_mem_filter this
  · rw [if_neg hb] at hu
    cases hu

theorem move_nodes_drain_inv (g : LGraph) (hgw : ∀ a b, g.w a b = g.w b a)
    (gamma : ℚ) (hgnd : g.vertices.Nodup)
    (queue : List LVertex) (hq : ∀ u ∈ queue, u ∈ g.vertices)
    (p : LPartition) (hinv : LPartitionInv g p) :
    LPartitionInv g (move_nodes_drain g gamma queue p).1
    ∧ constant_potts_model g p gamma
        ≤ constant_potts_model g (move_nodes_drain g gamma queue p).1 gamma
    ∧ ∀ u ∈ (move_nodes_drain g gamma queue p).2, u ∈ g.vertices := by
  unfold move_nodes_drain
  have hq2 : ∀ u ∈ queue.reverse, u ∈ g.vertices := by
    intro u hu
    exact hq u (List.mem_reverse.1 hu)
  have aux : ∀ (l : List LVertex), (∀ u ∈ l, u ∈ g.vertices) →
      ∀ (st : LPartition × List LVertex), LPartitionInv g st.1 →
      (∀ u ∈ st.2, u ∈ g.vertices) →
      LPartitionInv g (l.foldl (move_queue_step g gamma) st).1
      ∧ constant_potts_model g st.1 gamma
          ≤ constant_potts_model g (l.foldl (move_queue_step g gamma) st).1 gamma
      ∧ ∀ u ∈ (l.foldl (move_queue_step g gamma) st).2, u ∈ g.vertices := by
    intro l
    induction l with
    | nil => intro _ st h1 h2; exact ⟨h1, le_refl _, h2⟩
    | cons a t ih =>
        intro hmem st h1 h2
        simp only [List.foldl_cons]
        obtain ⟨k1, k2, k3⟩ := move_queue_step_inv g hgw gamma hgnd st h1 h2 a
          (hmem a (List.mem_cons_self a t))
        obtain ⟨m1, m2, m3⟩ := ih (fun u hu => hmem u (List.mem_cons_of_mem a hu))
          (move_queue_step g gamma st a) k1 k3
        exact ⟨m1, le_trans k2 m2, m3⟩
  exact aux queue.reverse hq2 (p, []) hinv (by intro u hu; cases hu)

/-- The full local-move pass never decreases the Constant Potts Model and
keeps the partition invariant. -/
theorem move_nodes_loop_inv (o : LeidenOracle)
    (ho : ∀ l, (o.reorder l).Perm l)
    (g : LGraph) (hgw : ∀ a b, g.w a b = g.w b a) (gamma : ℚ)
    (hgnd : g.vertices.Nodup) :
    ∀ (fuel : ℕ) (queue : List LVertex), (∀ u ∈ queue, u ∈ g.vertices) →
    ∀ (p : LPartition), LPartitionInv g p →
    LPartitionInv g (move_nodes_loop o g gamma fuel queue p)
    ∧ constant_potts_model g p gamma
        ≤ constant_potts_model g (move_nodes_loop o g gamma fuel queue p) gamma := by
  intro fuel
  induction fuel with
  | zero => intro queue _ p hinv; exact ⟨hinv, le_refl _⟩
  | succ n ih =>
      intro queue hq p hinv
      obtain ⟨h1, h2, h3⟩ := move_nodes_drain_inv g hgw gamma hgnd queue hq p hinv
      simp only [move_nodes_loop]
      by_cases hempty : (move_nodes_drain g gamma queue p).2 = []
      · rw [if_pos hempty]
        exact ⟨h1, h2⟩
      · rw [if_neg hempty]
        have hq2 : ∀ u ∈ o.reorder (move_nodes_drain g gamma queue p).2,
            u ∈ g.vertices := by
          intro u hu
          exact h3 u ((ho _).mem_iff.1 hu)
        obtain ⟨m1, m2⟩ := ih (o.reorder (move_nodes_drain g gamma queue p).2) hq2
          (move_nodes_drain g gamma queue p).1 h1
        exact ⟨m1, le_trans h2 m2⟩

theorem move_nodes_inv (o : LeidenOracle) (ho : ∀ l, (o.reorder l).Perm l)
    (fuel : ℕ) (g : LGraph) (hgw : ∀ a b, g.w a b = g.w b a)
    (hgnd : g.vertices.Nodup) (p : LPartition) (hinv : LPartitionInv g p)
    (gamma : ℚ) :
    LPartitionInv g (move_nodes o fuel g p gamma)
    ∧ constant_potts_model g p gamma
        ≤ constant_potts_model g (move_nodes o fuel g p gamma) gamma := by
  unfold move_nodes
  exact move_nodes_loop_inv o ho g hgw gamma hgnd fuel (o.reorder g.vertices)
    (fun u hu => (ho _).mem_iff.1 hu) p hinv

/-! ## `refine_partition`, `merge_nodes_subset`, `aggregate_graph` -/

/-- Abstraction of the sampling weights of `merge_nodes_subset`:
`exp(709) if Δ ≥ max_exp else exp(Δ/θ) if Δ ≥ 0 else 0`.
Each of the two `exp` branches is strictly positive and the third is zero,
so only the support — positivity exactly for `Δ ≥ 0` — is preserved; the
draw itself is an oracle, so no claim depends on the numeric weights. -/
def refine_weight (d : ℚ) : ℚ := if 0 ≤ d then 1 else 0

/-- The well-connected-node filter of `merge_nodes_subset`:
`count_connecting_edges(graph, {node}, subset − {node})
  ≥ γ · get_len(node) · (get_len(subset) − get_len(node))`. -/
def well_connected_nodes (g : LGraph) (gamma : ℚ) (subset : LCommunity) :
    List LVertex :=
  subset.filter (fun v => decide
    (gamma * (v.length : ℚ) * ((get_len subset : ℚ) - (v.length : ℚ))
      ≤ count_connecting_edges g [v] (set_remove subset v)))

/-- Python set difference `subset - community`. -/
def subset_diff (subset c : LCommunity) : LCommunity :=
  subset.filter (fun x => ¬ x ∈ c)

/-- The well-connected-community filter of `merge_nodes_subset`:
communities inside the subset whose outward weight within the subset meets
the CPM threshold. -/
def well_connected_communities (g : LGraph) (gamma : ℚ) (subset : LCommunity)
    (part : LPartition) : LPartition :=
  part.filter (fun c => c.all (fun x => decide (x ∈ subset)) && decide
    (gamma * (get_len c : ℚ) * ((get_len subset : ℚ) - (get_len c : ℚ))
      ≤ count_connecting_edges g c (subset_diff subset c)))

/-- One node of `merge_nodes_subset`: skip nodes already merged, sample a
well-connected candidate community with the `exp(Δ/θ)` distribution, and
move the node in unless it is already a member.  (The source indexes
`choices(...)[0]`, which always lands inside the candidate list; the
candidate list is never empty in a real run because the node's own singleton
qualifies, and the `[]` fallback mirrors that unreachable corner.) -/
def merge_step (o : LeidenOracle) (g : LGraph) (gamma : ℚ) (subset : LCommunity)
    (part : LPartition) (v : LVertex) : LPartition :=
  let nc := get_community_of_node part v
  if 1 < nc.length then part
  else
    let wcc := well_connected_communities g gamma subset part
    if wcc = [] then part
    else
      let community := wcc.getD
        (o.pick wcc (wcc.map (fun c => refine_weight (delta_potts_model g gamma v nc c)))
          % wcc.length) []
      if v ∈ community then part
      else apply_move part v nc community

/-- Source `merge_nodes_subset(graph, partition, gamma, subset)`. -/
def merge_nodes_subset (o : LeidenOracle) (g : LGraph) (part : LPartition)
    (gamma : ℚ) (subset : LCommunity) : LPartition :=
  (o.reorder (well_connected_nodes g gamma subset)).foldl
    (merge_step o g gamma subset) part

/-- Source `refine_partition(graph, partition, gamma)`: start from the
singleton partition and merge inside each community of the input. -/
def refine_partition (o : LeidenOracle) (g : LGraph) (p : LPartition)
    (gamma : ℚ) : LPartition :=
  p.foldl (fun rp c => merge_nodes_subset o g rp gamma c) (singleton_partition g)

/-- Source `aggregate_graph(graph, partition)`: communities become vertices
(the flat tuple of their leaf ids); the weight between two new vertices is
the summed original weight between their communities, kept only when
positive (entries with weight `≤ 0` are not stored and read back as 0). -/
def aggregate_graph (g : LGraph) (p : LPartition) : LGraph where
  vertices := p.map (fun c => c.flatten)
  w := fun u v2 =>
    (p.map (fun c1 => (p.map (fun c2 =>
      if c1.flatten = u ∧ c2.flatten = v2 ∧ 0 < cross_sum g.w c1 c2
      then cross_sum g.w c1 c2 else 0)).sum)).sum

/-- The update `get_leiden_parition` applies after aggregation: each outer
community becomes the set of new vertices whose leaves it contains. -/
def lift_partition (g2 : LGraph) (p : LPartition) : LPartition :=
  p.map (fun c => g2.vertices.filter (fun v => v.all (fun x => decide (x ∈ c.flatten))))

/-- One iteration of the `get_leiden_parition` main loop, as named by the
spec: a `move_nodes` pass, then `refine_partition`, `aggregate_graph`, and
the lift of the outer partition onto the super-vertices. -/
def leiden_iteration (o : LeidenOracle) (fuel : ℕ) (g : LGraph) (p : LPartition)
    (gamma : ℚ) : LGraph × LPartition :=
  let p1 := move_nodes o fuel g p gamma
  let refined := refine_partition o g p1 gamma
  let g2 := aggregate_graph g refined
  (g2, lift_partition g2 p1)

/-- The well-formedness of the in-memory graph snapshot: the leaf ids of all
vertices are pairwise distinct (a vertex is one ArangoDB id, or the tuple of
the distinct ids an aggregation step grouped) and every vertex is
non-empty. -/
def GoodGraph (g : LGraph) : Prop :=
  g.vertices.flatten.Nodup ∧ ∀ v ∈ g.vertices, v ≠ []

/-- The claim's objective: `H(G,P) = Σ_C [in(C) − γ·C(|C|,2)]`, with `in(C)`
the base-graph weight inside the flattened leaf set of `C` and `|C|`
counting flattened leaf vertices.  `W` is the leaf-level weight function of
the original graph (symmetric, one entry per direction). -/
def leiden_H (W : ℕ → ℕ → ℚ) (gamma : ℚ) (p : LPartition) : ℚ :=
  (p.map (fun c =>
    pair_sum nlt W c.flatten - gamma * ((get_len c).choose 2 : ℚ))).sum

/-- `g` is a faithful aggregate of the leaf-level weights `W`: the weight
between two vertices is the summed `W`-weight between their leaf sets. -/
def FaithfulAgg (W : ℕ → ℕ → ℚ) (g : LGraph) : Prop :=
  ∀ u ∈ g.vertices, ∀ x ∈ g.vertices, g.w u x = cross_sum W u x

/-- What `refine_partition` guarantees: a partition of the graph's vertices
into non-empty communities, each contained in one outer community. -/
def RefineInv (g : LGraph) (p1 : LPartition) (part : LPartition) : Prop :=
  part.flatten.Perm g.vertices
    ∧ ∀ c ∈ part, c ≠ [] ∧ ∃ C ∈ p1, ∀ x ∈ c, x ∈ C

theorem getD_mem_of_lt {α : Type} (l : List α) (i : ℕ) (d : α)
    (h : i < l.length) : l.getD i d ∈ l := by
  rw [List.getD_eq_getElem l d h]
  exact List.getElem_mem h

theorem merge_step_inv (o : LeidenOracle) (g : LGraph)
    (hgnd : g.vertices.Nodup) (gamma : ℚ)
    (p1 : LPartition) (hp1 : p1.flatten.Perm g.vertices)
    {subset : LCommunity} (hsubm : subset ∈ p1)
    (part : LPartition) (hinv : RefineInv g p1 part)
    (v : LVertex) (hv : v ∈ subset) :
    RefineInv g p1 (merge_step o g gamma subset part v) := by
  unfold merge_step
  by_cases h1 : 1 < (get_community_of_node part v).length
  · rw [if_pos h1]; exact hinv
  · rw [if_neg h1]
    by_cases h2 : well_connected_communities g gamma subset part = []
    · rw [if_pos h2]; exact hinv
    · rw [if_neg h2]
      set wcc := well_connected_communities g gamma subset part with hwcc
      set community := wcc.getD
        (o.pick wcc (wcc.map (fun c => refine_weight
          (delta_potts_model g gamma v (get_community_of_node part v) c)))
          % wcc.length) [] with hcommdef
      by_cases h3 : v ∈ community
      · rw [if_pos h3]; exact hinv
      · rw [if_neg h3]
        have hlen : 0 < wcc.length := List.length_pos.2 h2
        have hcmem : community ∈ wcc :=
          getD_mem_of_lt wcc _ [] (Nat.mod_lt _ hlen)
        have hcpart : community ∈ part := (List.mem_filter.1 hcmem).1
        have hccond := (List.mem_filter.1 hcmem).2
        have hcsub : ∀ x ∈ community, x ∈ subset := by
          intro x hx
          rw [Bool.and_eq_true] at hccond
          have := (List.all_eq_true.1 hccond.1) x hx
          simpa using this
        have hvg : v ∈ g.vertices := by
          refine hp1.mem_iff.1 ?_
          exact (sublist_flatten_of_mem hsubm).mem hv
        have hvpart : v ∈ part.flatten := (hinv.1.mem_iff).2 hvg
        obtain ⟨hncm, hvnc⟩ := get_community_spec hvpart
        have hfnd : part.flatten.Nodup := (hinv.1.nodup_iff).2 hgnd
        have hne : ∀ c ∈ part, c ≠ [] := fun c hc => (hinv.2 c hc).1
        have hct : community ∈ part ∨ community = [] := Or.inl hcpart
        constructor
        · exact (apply_move_flatten_perm part hfnd hne v hncm hvnc hct h3).trans hinv.1
        · intro c hc
          constructor
          · exact apply_move_nonempty part hfnd hne v hncm hvnc hct h3 c hc
          · rcases apply_move_mem part hfnd hne v hncm hvnc hct h3 c hc with hc2 | hc2 | hc2
            · have hcomne : community ≠ [] := hne community hcpart
              rw [if_neg hcomne] at hc2
              refine ⟨subset, hsubm, ?_⟩
              intro x hx
              rw [hc2] at hx
              rcases List.mem_append.1 hx with hx2 | hx2
              · exact hcsub x hx2
              · rw [List.mem_singleton.1 hx2]; exact hv
            · obtain ⟨C, hC, hCsub⟩ := (hinv.2 _ hncm).2
              refine ⟨C, hC, ?_⟩
              intro x hx
              rw [hc2.1] at hx
              exact hCsub x ((set_remove_sublist _ _).mem hx)
            · exact (hinv.2 c hc2).2

theorem merge_nodes_subset_inv (o : LeidenOracle)
    (ho : ∀ l, (o.reorder l).Perm l) (g : LGraph)
    (hgnd : g.vertices.Nodup) (gamma : ℚ)
    (p1 : LPartition) (hp1 : p1.flatten.Perm g.vertices)
    {subset : LCommunity} (hsubm : subset ∈ p1)
    (part : LPartition) (hinv : RefineInv g p1 part) :
    RefineInv g p1 (merge_nodes_subset o g part gamma subset) := by
  unfold merge_nodes_subset
  have hsub : ∀ v ∈ o.reorder (well_connected_nodes g gamma subset), v ∈ subset := by
    intro v hv
    have := (ho _).mem_iff.1 hv
    exact (List.mem_filter.1 this).1
  revert part
  generalize o.reorder (well_connected_nodes g gamma subset) = l at hsub
  induction l with
  | nil => intro part hinv; exact hinv
  | cons a t ih =>
      intro part hinv
      simp only [List.foldl_cons]
      refine ih (fun v hv => hsub v (List.mem_cons_of_mem a hv)) _ ?_
      exact merge_step_inv o g hgnd gamma p1 hp1 hsubm part hinv a
        (hsub a (List.mem_cons_self a t))

theorem flatten_map_singleton (l : List LVertex) :
    (l.map (fun v => [v])).flatten = l := by
  induction l with
  | nil => rfl
  | cons a t ih => simp [ih]

theorem refine_partition_inv (o : LeidenOracle)
    (ho : ∀ l, (o.reorder l).Perm l) (g : LGraph)
    (hgnd : g.vertices.Nodup) (gamma : ℚ)
    (p1 : LPartition) (hp1 : p1.flatten.Perm g.vertices) :
    RefineInv g p1 (refine_partition o g p1 gamma) := by
  unfold refine_partition
  have hinit : RefineInv g p1 (singleton_partition g) := by
    constructor
    · unfold singleton_partition
      rw [flatten_map_singleton]
    · intro c hc
      rcases List.mem_map.1 hc with ⟨v, hv, rfl⟩
      refine ⟨by simp, ?_⟩
      have : v ∈ p1.flatten := hp1.mem_iff.2 hv
      rcases List.mem_flatten.1 this with ⟨C, hC, hvC⟩
      exact ⟨C, hC, fun x hx => by rw [List.mem_singleton.1 hx]; exact hvC⟩
  have aux : ∀ (l : List LCommunity), (∀ C ∈ l, C ∈ p1) →
      ∀ part, RefineInv g p1 part →
      RefineInv g p1 (l.foldl (fun rp c => merge_nodes_subset o g rp gamma c) part) := by
    intro l
    induction l with
    | nil => intro _ part h; exact h
    | cons a t ih =>
        intro hmem part h
        simp only [List.foldl_cons]
        refine ih (fun C hC => hmem C (List.mem_cons_of_mem a hC)) _ ?_
        exact merge_nodes_subset_inv o ho g hgnd gamma p1 hp1
          (hmem a (List.mem_cons_self a t)) part h
  exact aux p1 (fun C hC => hC) (singleton_partition g) hinit

/-! ## Relating the claim-level objective to the running graph -/

/-- The leaf-level weight wholly inside one vertex: constant under moves. -/
def self_weight (W : ℕ → ℕ → ℚ) (v : LVertex) : ℚ := pair_sum nlt W v

theorem pair_sum_flatten_split (W : ℕ → ℕ → ℚ) (hWs : ∀ a b, W a b = W b a)
    (g : LGraph) (hgw : ∀ a b, g.w a b = g.w b a) (hfa : FaithfulAgg W g)
    (hvne : ∀ v ∈ g.vertices, v ≠ [])
    (c : LCommunity) (hsub : ∀ v ∈ c, v ∈ g.vertices) (hnd : c.flatten.Nodup) :
    pair_sum nlt W c.flatten = pair_sum vlt g.w c + (c.map (self_weight W)).sum := by
  induction c with
  | nil => simp [pair_sum_nil]
  | cons v t ih =>
      rw [List.flatten_cons] at hnd ⊢
      have hvg : v ∈ g.vertices := hsub v (List.mem_cons_self v t)
      have hvne2 : v ≠ [] := hvne v hvg
      have htsub : ∀ u ∈ t, u ∈ g.vertices :=
        fun u hu => hsub u (List.mem_cons_of_mem v hu)
      have hvnotint : v ∉ t := by
        intro hvt
        rcases List.exists_mem_of_ne_nil v hvne2 with ⟨x, hx⟩
        exact List.disjoint_of_nodup_append hnd hx (List.mem_flatten.2 ⟨v, hvt, hx⟩)
      have htnd : t.flatten.Nodup := hnd.of_append_right
      have hsplit : pair_sum nlt W (v ++ t.flatten)
          = pair_sum nlt W v + pair_sum nlt W t.flatten
            + cross_sum W v t.flatten :=
        pair_sum_append nlt W nlt_irrefl nlt_total nlt_asymm hWs v t.flatten hnd
      have hconsV : pair_sum vlt g.w (v :: t)
          = pair_sum vlt g.w t + cross_sum g.w t [v] :=
        pair_sum_cons vlt g.w vlt_irrefl vlt_total vlt_asymm hgw v t hvnotint
      have hcross : cross_sum g.w t [v] = cross_sum W v t.flatten := by
        rw [cross_sum_single_right]
        have hpt : ∀ u ∈ t, g.w u v = cross_sum W u v :=
          fun u hu => hfa u (htsub u hu) v hvg
        have h1 : (t.map (fun u => g.w u v)).sum
            = (t.map (fun u => cross_sum W u v)).sum :=
          congrArg List.sum (List.map_congr_left hpt)
        rw [h1, ← cross_sum_flatten_left]
        exact cross_sum_comm W hWs t.flatten v
      rw [hsplit, hconsV, ih htsub htnd, hcross]
      simp only [List.map_cons, List.sum_cons, self_weight]
      ring

/-- The bridge: the claim-level objective on a partition of the current
graph's vertices is the running `constant_potts_model` plus a constant that
only depends on the graph (the weight inside each vertex). -/
theorem leiden_H_bridge (W : ℕ → ℕ → ℚ) (hWs : ∀ a b, W a b = W b a)
    (g : LGraph) (hgw : ∀ a b, g.w a b = g.w b a) (hfa : FaithfulAgg W g)
    (hgood : GoodGraph g) (gamma : ℚ)
    (p : LPartition) (hinv : LPartitionInv g p) :
    leiden_H W gamma p
      = constant_potts_model g p gamma + (g.vertices.map (self_weight W)).sum := by
  have hleafnd : p.flatten.flatten.Nodup := by
    have := (hinv.1.flatten.nodup_iff).2 hgood.1
    exact this
  have hpc : ∀ c ∈ p,
      pair_sum nlt W c.flatten = pair_sum vlt g.w c + (c.map (self_weight W)).sum := by
    intro c hc
    refine pair_sum_flatten_split W hWs g hgw hfa hgood.2 c ?_ ?_
    · intro v hv
      exact hinv.1.mem_iff.1 ((sublist_flatten_of_mem hc).mem hv)
    · exact (sublist_flatten_mono (sublist_flatten_of_mem hc)).nodup hleafnd
  unfold leiden_H constant_potts_model
  have hmap : (p.map (fun c =>
      pair_sum nlt W c.flatten - gamma * ((get_len c).choose 2 : ℚ)))
      = (p.map (fun c =>
        (count_connecting_edges_in g c - gamma * ((get_len c).choose 2 : ℚ))
        + (c.map (self_weight W)).sum)) := by
    refine List.map_congr_left ?_
    intro c hc
    rw [hpc c hc]
    unfold count_connecting_edges_in
    ring
  rw [hmap, List.sum_map_add]
  congr 1
  have h1 : (p.map (fun c => (c.map (self_weight W)).sum)).sum
      = (p.flatten.map (self_weight W)).sum := by
    rw [List.map_flatten, List.sum_flatten, List.map_map]
    rfl
  rw [h1]
  exact ((hinv.1.map (self_weight W)).sum_eq)

theorem map_filter_swap {α β : Type} (f : α → β) (q : β → Bool) (l : List α) :
    (l.map f).filter q = (l.filter (fun x => q (f x))).map f := by
  induction l with
  | nil => rfl
  | cons a t ih =>
      rw [List.map_cons, List.filter_cons, List.filter_cons]
      by_cases h : q (f a) = true
      · rw [if_pos h, if_pos h, List.map_cons, ih]
      · rw [if_neg h, if_neg h, ih]

theorem flatten_map_flatten (l : List (List (List ℕ))) :
    (l.map List.flatten).flatten = l.flatten.flatten := by
  induction l with
  | nil => rfl
  | cons a t ih =>
      rw [List.map_cons, List.flatten_cons, List.flatten_cons,
        List.flatten_append, ih]

/-- Aggregation followed by the lift leaves the claim-level objective
unchanged: each lifted community flattens to the same leaf multiset as the
outer community it came from. -/
theorem leiden_H_lift (W : ℕ → ℕ → ℚ) (gamma : ℚ) (g : LGraph)
    (hgood : GoodGraph g) (p1 : LPartition) (hp1 : LPartitionInv g p1)
    (r : LPartition) (hr : RefineInv g p1 r) :
    leiden_H W gamma (lift_partition (aggregate_graph g r) p1)
      = leiden_H W gamma p1 := by
  have hgvnd : g.vertices.Nodup := nodup_of_flatten_nodup hgood.1 hgood.2
  have hp1fnd : p1.flatten.Nodup := (hp1.1.nodup_iff).2 hgvnd
  have hrfnd : r.flatten.Nodup := (hr.1.nodup_iff).2 hgvnd
  -- the pointwise permutation of leaf lists
  have key : ∀ C ∈ p1,
      ((aggregate_graph g r).vertices.filter
        (fun v => v.all (fun x => decide (x ∈ C.flatten)))).flatten.Perm C.flatten := by
    intro C hC
    have hCsubg : ∀ v ∈ C, v ∈ g.vertices :=
      fun v hv => hp1.1.mem_iff.1 ((sublist_flatten_of_mem hC).mem hv)
    -- switch the filter over mapped vertices to a filter over communities of r
    have hvx : (aggregate_graph g r).vertices = r.map (fun c => c.flatten) := rfl
    rw [hvx, map_filter_swap]
    -- the predicates agree on members of r
    have hpred : ∀ cr ∈ r,
        ((cr.flatten).all (fun x => decide (x ∈ C.flatten)))
          = (cr.all (fun v => decide (v ∈ C))) := by
      intro cr hcr
      by_cases hcontained : ∀ v ∈ cr, v ∈ C
      · have h1 : (cr.flatten).all (fun x => decide (x ∈ C.flatten)) = true := by
          rw [List.all_eq_true]
          intro x hx
          rcases List.mem_flatten.1 hx with ⟨v, hv, hxv⟩
          simp only [decide_eq_true_eq]
          exact List.mem_flatten.2 ⟨v, hcontained v hv, hxv⟩
        have h2 : cr.all (fun v => decide (v ∈ C)) = true := by
          rw [List.all_eq_true]
          intro v hv
          simpa using hcontained v hv
        rw [h1, h2]
      · push_neg at hcontained
        obtain ⟨v, hvcr, hvnotC⟩ := hcontained
        have hvg : v ∈ g.vertices :=
          hr.1.mem_iff.1 ((sublist_flatten_of_mem hcr).mem hvcr)
        have hvne : v ≠ [] := hgood.2 v hvg
        rcases List.exists_mem_of_ne_nil v hvne with ⟨x, hxv⟩
        have h1 : (cr.flatten).all (fun x => decide (x ∈ C.flatten)) = false := by
          rw [List.all_eq_false]
          refine ⟨x, List.mem_flatten.2 ⟨v, hvcr, hxv⟩, ?_⟩
          simp only [decide_eq_true_eq]
          intro hxC
          rcases List.mem_flatten.1 hxC with ⟨u, huC, hxu⟩
          have hug : u ∈ g.vertices := hCsubg u huC
          have : v = u := flatten_nodup_mem_unique hgood.1 hvg hug hxv hxu
          exact hvnotC (this ▸ huC)
        have h2 : cr.all (fun v => decide (v ∈ C)) = false := by
          rw [List.all_eq_false]
          exact ⟨v, hvcr, by simpa using hvnotC⟩
        rw [h1, h2]
    rw [List.filter_congr hpred]
    -- now show (r.filter (· ⊆ C)).flatten ~ C, then flatten again
    set rC := r.filter (fun cr => cr.all (fun v => decide (v ∈ C))) with hrC
    have hrCsub : rC.Sublist r := List.filter_sublist r
    have hrCfnd : rC.flatten.Nodup := (sublist_flatten_mono hrCsub).nodup hrfnd
    have hCnd : C.Nodup := (sublist_flatten_of_mem hC).nodup hp1fnd
    have hperm : rC.flatten.Perm C := by
      rw [List.perm_ext_iff_of_nodup hrCfnd hCnd]
      intro v
      constructor
      · intro hv
        rcases List.mem_flatten.1 hv with ⟨cr, hcr, hvcr⟩
        have hcond := (List.mem_filter.1 hcr).2
        have := (List.all_eq_true.1 hcond) v hvcr
        simpa using this
      · intro hvC
        have hvg : v ∈ g.vertices := hCsubg v hvC
        have hvr : v ∈ r.flatten := hr.1.mem_iff.2 hvg
        rcases List.mem_flatten.1 hvr with ⟨cr, hcr, hvcr⟩
        obtain ⟨_, C2, hC2, hcrC2⟩ := hr.2 cr hcr
        have hvC2 : v ∈ C2 := hcrC2 v hvcr
        have hCeq : C = C2 := flatten_nodup_mem_unique hp1fnd hC hC2 hvC hvC2
        have hcrC : ∀ u ∈ cr, u ∈ C := by
          rw [hCeq]; exact hcrC2
        have hcrmem : cr ∈ rC := by
          rw [hrC]
          refine List.mem_filter.2 ⟨hcr, ?_⟩
          rw [List.all_eq_true]
          intro u hu
          simpa using hcrC u hu
        exact List.mem_flatten.2 ⟨cr, hcrmem, hvcr⟩
    have : (rC.map (fun c => c.flatten)).flatten = rC.flatten.flatten :=
      flatten_map_flatten rC
    rw [this]
    exact hperm.flatten
  -- conclude by a pointwise rewrite of the` leiden_H` summands
  unfold leiden_H lift_partition
  rw [List.map_map]
  refine congrArg List.sum (List.map_congr_left ?_)
  intro C hC
  have hperm := key C hC
  simp only [Function.comp]
  rw [pair_sum_perm nlt W hperm]
  have hlen : get_len ((aggregate_graph g r).vertices.filter
      (fun v => v.all (fun x => decide (x ∈ C.flatten)))) = get_len C := by
    rw [get_len_eq_length_flatten, get_len_eq_length_flatten]
    exact hperm.length_eq
  rw [hlen]

/-- Claim C1 (Leiden monotonicity): for every weighted undirected graph —
a faithful aggregate `g` of symmetric leaf-level weights `W` — and every
iteration of the Leiden main loop (one `move_nodes` local-move pass with any
shuffle oracle and refill budget, followed by `refine_partition` and
`aggregate_graph` with the outer partition lifted onto the super-vertices),
the CPM objective `H(G,P) = Σ_C [in(C) − γ·C(|C|,2)]`, evaluated with `|C|`
counting flattened leaf vertices, is non-decreasing from one iteration to
the next. -/
theorem leiden_iteration_monotone
    (o : LeidenOracle) (ho : ∀ l, (o.reorder l).Perm l) (fuel : ℕ)
    (W : ℕ → ℕ → ℚ) (hWs : ∀ a b, W a b = W b a)
    (g : LGraph) (hgw : ∀ a b, g.w a b = g.w b a)
    (hfa : FaithfulAgg W g) (hgood : GoodGraph g)
    (p : LPartition) (hp : LPartitionInv g p) (gamma : ℚ) :
    leiden_H W gamma p ≤ leiden_H W gamma (leiden_iteration o fuel g p gamma).2 := by
  have hgvnd : g.vertices.Nodup := nodup_of_flatten_nodup hgood.1 hgood.2
  obtain ⟨hinv1, hmono⟩ := move_nodes_inv o ho fuel g hgw hgvnd p hp gamma
  have hrinv := refine_partition_inv o ho g hgvnd gamma
    (move_nodes o fuel g p gamma) hinv1.1
  have hbridge_p := leiden_H_bridge W hWs g hgw hfa hgood gamma p hp
  have hbridge_p1 := leiden_H_bridge W hWs g hgw hfa hgood gamma
    (move_nodes o fuel g p gamma) hinv1
  have hlift := leiden_H_lift W gamma g hgood (move_nodes o fuel g p gamma) hinv1
    (refine_partition o g (move_nodes o fuel g p gamma) gamma) hrinv
  show leiden_H W gamma p ≤ leiden_H W gamma
    (lift_partition
      (aggregate_graph g (refine_partition o g (move_nodes o fuel g p gamma) gamma))
      (move_nodes o fuel g p gamma))
  rw [hlift, hbridge_p, hbridge_p1]
  linarith

theorem leiden_iteration_monotone_witness :
    leiden_H (fun _ _ => (0 : ℚ)) 1 [[[0]],[[1]]]
      ≤ leiden_H (fun _ _ => (0 : ℚ)) 1
        (leiden_iteration ⟨id, fun _ _ => 0⟩ 1
          ⟨[[0],[1]], fun u x => cross_sum (fun _ _ => (0 : ℚ)) u x⟩ [[[0]],[[1]]] 1).2 :=
  leiden_iteration_monotone ⟨id, fun _ _ => 0⟩ (fun l => List.Perm.refl l) 1
    (fun _ _ => (0 : ℚ)) (by intro a b; rfl)
    ⟨[[0],[1]], fun u x => cross_sum (fun _ _ => (0 : ℚ)) u x⟩
    (fun a b => cross_sum_comm (fun _ _ => (0 : ℚ)) (fun _ _ => rfl) a b)
    (fun u _ x _ => rfl) ⟨by decide, by decide⟩
    [[[0]],[[1]]] ⟨by decide, by decide⟩ 1

/-- Claim C2 (delta-CPM exactness): for every graph with a symmetric edge
dictionary, every partition (communities covering the vertex multiset, none
empty), every `γ`, every vertex `v` with current community `C(v)` and every
target community `Cₜ` (an existing community, or the fresh empty set),
`delta_potts_model` equals `constant_potts_model` of the partition with `v`
moved into `Cₜ` minus `constant_potts_model` of the unchanged partition; and
it returns 0 whenever `v` is already a member of the target. -/
theorem delta_potts_model_exact
    (g : LGraph) (hgw : ∀ a b, g.w a b = g.w b a) (gamma : ℚ)
    (p : LPartition) (hf : p.flatten.Nodup) (hne : ∀ c ∈ p, c ≠ [])
    (v : LVertex) (hv : v ∈ p.flatten)
    (ct : LCommunity) (hct : ct ∈ p ∨ ct = []) (hvct : v ∉ ct)
    (ct2 : LCommunity) (hct2 : v ∈ ct2) :
    delta_potts_model g gamma v (get_community_of_node p v) ct
      = constant_potts_model g (apply_move p v (get_community_of_node p v) ct) gamma
        - constant_potts_model g p gamma
    ∧ delta_potts_model g gamma v (get_community_of_node p v) ct2 = 0 := by
  constructor
  · have h := cpm_apply_move g hgw gamma p hf hne v hv ct hct hvct
    linarith
  · rw [delta_potts_model, if_pos hct2]

theorem delta_potts_model_exact_witness :
    delta_potts_model ⟨[[0],[1]], fun _ _ => (0 : ℚ)⟩ 1 [0]
        (get_community_of_node [[[0]],[[1]]] [0]) [[1]]
      = constant_potts_model ⟨[[0],[1]], fun _ _ => (0 : ℚ)⟩
          (apply_move [[[0]],[[1]]] [0]
            (get_community_of_node [[[0]],[[1]]] [0]) [[1]]) 1
        - constant_potts_model ⟨[[0],[1]], fun _ _ => (0 : ℚ)⟩ [[[0]],[[1]]] 1
    ∧ delta_potts_model ⟨[[0],[1]], fun _ _ => (0 : ℚ)⟩ 1 [0]
        (get_community_of_node [[[0]],[[1]]] [0]) [[0]] = 0 :=
  delta_potts_model_exact ⟨[[0],[1]], fun _ _ => (0 : ℚ)⟩ (fun _ _ => rfl) 1
    [[[0]],[[1]]] (by decide) (by decide) [0] (by decide)
    [[1]] (by decide) (by decide) [[0]] (by decide)

/-! ### The full partitioner pipeline (`get_leiden_parition`,
`get_hierarchical_leiden`, `get_community_nodes`, `get_community_graph`).

`get_leiden_parition`'s `while True` loop is modelled with a fuel argument
(`loopFuel`); each pass is a `move_nodes`, the `len(partition) ==
len(graph['vertices'])` break, then `refine_partition`, `aggregate_graph`
and the set-comprehension lift of the outer partition.  On exhausted fuel we
return the current partition flattened, as the final line of the source
does.  Nested partitions (`partition[i]` is either a list of ids or a
recursively nested list) are the inductive `PTree`. -/

def get_leiden_parition (o : LeidenOracle) (mF : ℕ) :
    ℕ → LGraph → LPartition → ℚ → List (List ℕ)
  | 0, _, p, _ => p.map (fun c => c.flatten)
  | fuel + 1, g, p, gamma =>
    let p1 := move_nodes o mF g p gamma
    if p1.length = g.vertices.length then p1.map (fun c => c.flatten)
    else
      let refined := refine_partition o g p1 gamma
      let g2 := aggregate_graph g refined
      get_leiden_parition o mF fuel g2 (lift_partition g2 p1) gamma

/-- A nested community: either a single vertex id (a scalar in the Python
lists) or a list of nested communities. -/
inductive PTree : Type where
  | lf (n : ℕ) : PTree
  | nd (ts : List PTree) : PTree

mutual

/-- `flatten` specialised to nested partitions: the stream of leaf ids. -/
def ptree_flatten : PTree → List ℕ
  | .lf n => [n]
  | .nd ts => ptree_flatten_list ts

def ptree_flatten_list : List PTree → List ℕ
  | [] => []
  | t :: ts => ptree_flatten t ++ ptree_flatten_list ts

end

/-- `get_hierarchical_leiden`: run `get_leiden_parition` from the singleton
partition; if at most one community results, return it (as leaves) with
depth 0; otherwise decrement `max_depth` and re-partition every community
larger than `max_cluster_size` (when the decremented depth is non-zero) on
the sub-graph made of its vertices, with `gamma * gamma_multiplier`,
keeping the loop's depth bookkeeping (`if current_depth >= depth: depth =
current_depth + 1`, starting from 1). -/
def get_hierarchical_leiden (o : LeidenOracle) (mF lF mcs : ℕ) (gm : ℚ) :
    ℕ → LGraph → ℚ → List PTree × ℕ
  | maxDepth, g, gamma =>
    let partition := get_leiden_parition o mF lF g (singleton_partition g) gamma
    if partition.length ≤ 1 then ((partition.headD []).map PTree.lf, 0)
    else
      partition.foldl (fun acc c =>
        if h : maxDepth - 1 ≠ 0 ∧ mcs < c.length then
          let r := get_hierarchical_leiden o mF lF mcs gm (maxDepth - 1)
            ⟨c.map (fun n => [n]), g.w⟩ (gamma * gm)
          (acc.1 ++ [PTree.nd r.1], if acc.2 ≤ r.2 then r.2 + 1 else acc.2)
        else (acc.1 ++ [PTree.nd (c.map PTree.lf)], acc.2)) ([], 1)
termination_by maxDepth _ _ => maxDepth
decreasing_by omega

/-- `mapping[idx].append(c)` on the layer array. -/
def append_at (m : List (List (List ℕ))) (i : ℕ) (c : List ℕ) :
    List (List (List ℕ)) :=
  m.mapIdx (fun j l => if j = i then l ++ [c] else l)

mutual

/-- `flatten_partition_depth`: a list node appends its flattened leaves at
layer `idx` and recurses on its children at `idx + 1`; a scalar flood-fills
`[community]` into every layer from `idx` to `depth - 1`. -/
def flatten_partition_depth (t : PTree) (depth : ℕ) (m : List (List (List ℕ)))
    (idx : ℕ) : List (List (List ℕ)) :=
  match t with
  | .lf n => (List.range' idx (depth - idx)).foldl (fun m2 i => append_at m2 i [n]) m
  | .nd ts => fpd_list ts depth (append_at m idx (ptree_flatten (PTree.nd ts))) (idx + 1)

def fpd_list : List PTree → ℕ → List (List (List ℕ)) → ℕ → List (List (List ℕ))
  | [], _, m, _ => m
  | t :: ts, depth, m, idx => fpd_list ts depth (flatten_partition_depth t depth m idx) idx

end

/-- `get_community_nodes`: `depth + 1` empty layers filled by
`flatten_partition_depth` over each top-level community (the final
tuple-conversion of each community is the identity on our id lists). -/
def get_community_nodes (partition : List PTree) (depth : ℕ) :
    List (List (List ℕ)) :=
  partition.foldl (fun m t => flatten_partition_depth t (depth + 1) m 0)
    (List.replicate (depth + 1) [])

/-- Python `set(a) <= set(b)` on id tuples. -/
def id_subset (a b : List ℕ) : Bool :=
  a.all (fun x => decide (x ∈ b))

/-- The community graph returned by `get_community_graph`: an
insertion-ordered edge dictionary, the vertex set and the height. -/
structure CommunityGraph where
  vertices : List (List ℕ × ℕ × ℕ)
  edges : List ((List ℕ × List ℕ) × List (ℚ × ℕ))
  height : ℕ

/-- `edges.setdefault(k, []).append(v)` on an insertion-ordered dict. -/
def edges_push (es : List ((List ℕ × List ℕ) × List (ℚ × ℕ)))
    (k : List ℕ × List ℕ) (v : ℚ × ℕ) :
    List ((List ℕ × List ℕ) × List (ℚ × ℕ)) :=
  if es.any (fun e => decide (e.1 = k)) then
    es.map (fun e => if e.1 = k then (e.1, e.2 ++ [v]) else e)
  else es ++ [(k, [v])]

/-- `get_community_graph` on a pre-computed nested partition: for each pair
of adjacent layers, a weight-1 edge between set-equal communities, else an
edge carrying `count_connecting_edges(graph, from - to, to)` when `to` is a
subset of `from` and that weight is positive; then weight-1 edges from the
whole-graph node to every layer-0 community; vertices are all
`(community, degree + 1, idx)` triples plus `(graph_node, 0, 0)`; the
height is the number of layers.  `W` is the base graph's edge dictionary
and `bv` its vertex tuple; Python's intermediate `set(...)` conversions
are `dedup` (sums are order-insensitive). -/
def get_community_graph (W : ℕ → ℕ → ℚ) (bv : List ℕ) (partition : List PTree)
    (depth : ℕ) : CommunityGraph :=
  let partitions := get_community_nodes partition depth
  let edges1 := (List.range (partitions.length - 1)).foldl (fun es pidx =>
    (partitions.getD pidx []).foldl (fun es2 cfrom =>
      (partitions.getD (pidx + 1) []).foldl (fun es3 cto =>
        if id_subset cto cfrom && id_subset cfrom cto then
          edges_push es3 (cfrom, cto) (1, pidx + 1)
        else if id_subset cto cfrom &&
            decide (0 < cross_sum W ((cfrom.filter (fun x => decide (¬ x ∈ cto))).dedup)
              cto.dedup) then
          edges_push es3 (cfrom, cto)
            (cross_sum W ((cfrom.filter (fun x => decide (¬ x ∈ cto))).dedup) cto.dedup,
              pidx + 1)
        else es3) es2) es) []
  let edges2 := (partitions.headD []).foldl (fun es c => edges_push es (bv, c) (1, 0)) edges1
  { vertices :=
      ((partitions.enum).map (fun dp =>
        (dp.2.enum).map (fun ic => (ic.2, dp.1 + 1, ic.1)))).flatten ++ [(bv, 0, 0)]
    edges := edges2
    height := partitions.length }

/-- Claim C3 (determinism of the partitioner): with the seeded RNG fixed —
one `LeidenOracle` drives every shuffle of the move queue and every
weighted sample in refine, and ties in `Δ` are broken by the fold order of
`best_move` — two runs of `get_hierarchical_leiden` on equal input graphs
(same vertex list, same edge dictionary) produce equal nested partitions
and equal depths, and the `get_community_graph` derived from the two runs
is also equal: the output is a function of the graph alone given the
seed. -/
theorem get_hierarchical_leiden_deterministic
    (o : LeidenOracle) (mF lF mcs : ℕ) (gm : ℚ) (maxDepth : ℕ) (gamma : ℚ)
    (g1 g2 : LGraph) (hv : g1.vertices = g2.vertices)
    (hw : ∀ u v, g1.w u v = g2.w u v)
    (W : ℕ → ℕ → ℚ) (bv : List ℕ) :
    get_hierarchical_leiden o mF lF mcs gm maxDepth g1 gamma
      = get_hierarchical_leiden o mF lF mcs gm maxDepth g2 gamma
    ∧ get_community_graph W bv
        (get_hierarchical_leiden o mF lF mcs gm maxDepth g1 gamma).1
        (get_hierarchical_leiden o mF lF mcs gm maxDepth g1 gamma).2
      = get_community_graph W bv
          (get_hierarchical_leiden o mF lF mcs gm maxDepth g2 gamma).1
          (get_hierarchical_leiden o mF lF mcs gm maxDepth g2 gamma).2 := by
  have hg : g1 = g2 := by
    cases g1 with
    | mk v1 w1 =>
      cases g2 with
      | mk v2 w2 =>
        simp only [LGraph.mk.injEq]
        exact ⟨hv, funext fun u => funext fun x => hw u x⟩
  subst hg
  exact ⟨rfl, rfl⟩

theorem get_hierarchical_leiden_deterministic_witness :
    get_hierarchical_leiden ⟨id, fun _ _ => 0⟩ 1 1 20 2 6 ⟨[[0], [1]], fun _ _ => (1 : ℚ)⟩ 1
      = get_hierarchical_leiden ⟨id, fun _ _ => 0⟩ 1 1 20 2 6 ⟨[[0], [1]], fun _ _ => (1 : ℚ)⟩ 1
    ∧ get_community_graph (fun _ _ => (1 : ℚ)) [0, 1]
        (get_hierarchical_leiden ⟨id, fun _ _ => 0⟩ 1 1 20 2 6
          ⟨[[0], [1]], fun _ _ => (1 : ℚ)⟩ 1).1
        (get_hierarchical_leiden ⟨id, fun _ _ => 0⟩ 1 1 20 2 6
          ⟨[[0], [1]], fun _ _ => (1 : ℚ)⟩ 1).2
      = get_community_graph (fun _ _ => (1 : ℚ)) [0, 1]
          (get_hierarchical_leiden ⟨id, fun _ _ => 0⟩ 1 1 20 2 6
            ⟨[[0], [1]], fun _ _ => (1 : ℚ)⟩ 1).1
          (get_hierarchical_leiden ⟨id, fun _ _ => 0⟩ 1 1 20 2 6
            ⟨[[0], [1]], fun _ _ => (1 : ℚ)⟩ 1).2 :=
  get_hierarchical_leiden_deterministic ⟨id, fun _ _ => 0⟩ 1 1 20 2 6 1
    ⟨[[0], [1]], fun _ _ => (1 : ℚ)⟩ ⟨[[0], [1]], fun _ _ => (1 : ℚ)⟩
    rfl (fun _ _ => rfl) (fun _ _ => (1 : ℚ)) [0, 1]

/-! ### The Markdown chunker `split` (`raglib/utils/file_parsers/RAGSplit.py`).

Python strings are modelled as `List Char` so that every operation
(`split("\n\n")`, `strip`, `startswith`, `len`, `+`) is structural and
kernel-evaluable.  A page's sections are the pieces between double
newlines; `strip` removes leading and trailing whitespace; the page set
`pages` is an insertion-ordered duplicate-free list (its order only feeds
the PageHint cosmetics). -/

abbrev PStr : Type := List Char

/-- The whitespace `str.strip()` removes (the characters that occur in
markdown text). -/
def is_pyspace (c : Char) : Bool :=
  c = ' ' || c = '\n' || c = '\t' || c = '\r'

/-- `line.strip()`. -/
def pstr_strip (s : PStr) : PStr :=
  ((s.dropWhile is_pyspace).reverse.dropWhile is_pyspace).reverse

/-- `line.startswith(p)` (first argument is the pattern). -/
def pstr_startsWith : PStr → PStr → Bool
  | [], _ => true
  | _ :: _, [] => false
  | p :: ps, c :: cs => p = c && pstr_startsWith ps cs

/-- `page.split("\n\n")`: non-overlapping left-to-right splitting on two
consecutive newlines; the accumulator holds the current piece reversed. -/
def split_paragraphs : PStr → PStr → List PStr
  | [], acc => [acc.reverse]
  | [c], acc => [(c :: acc).reverse]
  | c :: d :: rest, acc =>
    if c = '\n' ∧ d = '\n' then acc.reverse :: split_paragraphs rest []
    else split_paragraphs (d :: rest) (c :: acc)

/-- One emitted text split (`ref` is `list(pages)`; the derived `Content`
and `PageHint` strings are cosmetic post-processing the claims do not
touch). -/
structure Chunk where
  h1 : PStr
  h2 : PStr
  h3 : PStr
  body : PStr
  ref : List ℕ
deriving DecidableEq

/-- The mutable state of the `split` loop. -/
structure SplitState where
  h1 : PStr
  h2 : PStr
  h3 : PStr
  body : PStr
  pages : List ℕ
  last : ℕ
  results : List Chunk

/-- `pages |= {idx}` on the insertion-ordered page set. -/
def pages_insert (l : List ℕ) (i : ℕ) : List ℕ :=
  if i ∈ l then l else l ++ [i]

/-- Processing one section `line` of page `idx`: the four-way dispatch on
`# ` / `## ` / `### ` headers and body text, with the flush-on-transition
(`last == 4`) and the flush-on-overflow (`body and len(body) + len(line) >
max_chunk_size`) rules of the source. -/
def split_line (maxc : ℕ) (idx : ℕ) (st : SplitState) (line : PStr) :
    SplitState :=
  if pstr_startsWith ['#', ' '] line then
    if st.last = 1 then
      { st with h1 := if st.h1 ≠ [] then st.h1 ++ [' '] ++ pstr_strip (line.drop 2)
                      else pstr_strip (line.drop 2) }
    else if st.last = 4 then
      { st with
        results := st.results ++ [⟨st.h1, st.h2, st.h3, st.body, st.pages⟩]
        pages := []
        h1 := pstr_strip (line.drop 2), h2 := [], h3 := [], body := [], last := 1 }
    else
      { st with h1 := pstr_strip (line.drop 2), h2 := [], h3 := [], body := []
                last := 1 }
  else if pstr_startsWith ['#', '#', ' '] line then
    if st.last = 2 then
      { st with h2 := if st.h2 ≠ [] then st.h2 ++ [' '] ++ pstr_strip (line.drop 3)
                      else pstr_strip (line.drop 3) }
    else if st.last = 4 then
      { st with
        results := st.results ++ [⟨st.h1, st.h2, st.h3, st.body, st.pages⟩]
        pages := []
        h2 := pstr_strip (line.drop 3), h3 := [], body := [], last := 2 }
    else
      { st with h2 := pstr_strip (line.drop 3), h3 := [], body := [], last := 2 }
  else if pstr_startsWith ['#', '#', '#', ' '] line then
    if st.last = 3 then
      { st with h3 := if st.h3 ≠ [] then st.h3 ++ [' '] ++ pstr_strip (line.drop 4)
                      else pstr_strip (line.drop 4) }
    else if st.last = 4 then
      { st with
        results := st.results ++ [⟨st.h1, st.h2, st.h3, st.body, st.pages⟩]
        pages := []
        h3 := pstr_strip (line.drop 4), body := [], last := 3 }
    else
      { st with h3 := pstr_strip (line.drop 4), body := [], last := 3 }
  else
    if st.last = 4 then
      if st.body ≠ [] ∧ maxc < st.body.length + (pstr_strip line).length then
        { st with
          results := st.results ++ [⟨st.h1, st.h2, st.h3, st.body, st.pages⟩]
          pages := pages_insert [idx] idx
          body := pstr_strip line }
      else
        { st with
          body := if st.body ≠ [] then st.body ++ ['\n', '\n'] ++ pstr_strip line
                  else pstr_strip line
          pages := pages_insert st.pages idx }
    else
      { st with body := pstr_strip line, last := 4
                pages := pages_insert st.pages idx }

/-- `split(data, max_chunk_size)`: fold `split_line` over every section of
every page (pages enumerated from 0), then append the trailing chunk when
the loop ends in body state. -/
def split_run (data : List PStr) (maxc : ℕ) : SplitState :=
  (data.enum).foldl (fun st p =>
      (split_paragraphs p.2 []).foldl (fun st2 line => split_line maxc p.1 st2 line) st)
    ⟨[], [], [], [], [], 1, []⟩

def split (data : List PStr) (maxc : ℕ) : List Chunk :=
  if (split_run data maxc).last = 4 then
    (split_run data maxc).results ++
      [⟨(split_run data maxc).h1, (split_run data maxc).h2, (split_run data maxc).h3,
        (split_run data maxc).body, (split_run data maxc).pages⟩]
  else (split_run data maxc).results

/-- `b` is the stripped text of one double-newline section of one input
page. -/
def SectionOf (data : List PStr) (b : PStr) : Prop :=
  ∃ page ∈ data, ∃ sec ∈ split_paragraphs page [], b = pstr_strip sec

/-- The body budget the source actually guarantees: at most
`max_chunk_size + 2` characters (the `"\n\n"` join is not counted by the
overflow test) unless the body is one single oversized section, which
`split` emits whole. -/
def body_ok (data : List PStr) (maxc : ℕ) (b : PStr) : Prop :=
  b.length ≤ maxc + 2 ∨ SectionOf data b

/-- Loop invariant of `split`: the pending body and every flushed chunk
satisfy the budget. -/
def SplitInv (data : List PStr) (maxc : ℕ) (st : SplitState) : Prop :=
  body_ok data maxc st.body ∧ ∀ c ∈ st.results, body_ok data maxc c.body

theorem split_line_inv (data : List PStr) (maxc idx : ℕ) (st : SplitState)
    (line : PStr) (hline : ∃ page ∈ data, line ∈ split_paragraphs page [])
    (hst : SplitInv data maxc st) :
    SplitInv data maxc (split_line maxc idx st line) := by
  obtain ⟨hbody, hres⟩ := hst
  obtain ⟨pg, hpg, hl⟩ := hline
  have hsec : SectionOf data (pstr_strip line) := ⟨pg, hpg, line, hl, rfl⟩
  have hnil : body_ok data maxc [] := Or.inl (by simp)
  have hflush : ∀ c ∈ st.results ++ [(⟨st.h1, st.h2, st.h3, st.body, st.pages⟩ : Chunk)],
      body_ok data maxc c.body := by
    intro c hc
    rcases List.mem_append.1 hc with h | h
    · exact hres c h
    · rw [List.mem_singleton.1 h]
      exact hbody
  unfold split_line
  split
  · split
    · exact ⟨hbody, hres⟩
    · split
      · exact ⟨hnil, hflush⟩
      · exact ⟨hnil, hres⟩
  · split
    · split
      · exact ⟨hbody, hres⟩
      · split
        · exact ⟨hnil, hflush⟩
        · exact ⟨hnil, hres⟩
    · split
      · split
        · exact ⟨hbody, hres⟩
        · split
          · exact ⟨hnil, hflush⟩
          · exact ⟨hnil, hres⟩
      · split
        · split
          · exact ⟨Or.inr hsec, hflush⟩
          · refine ⟨?_, hres⟩
            split
            case isTrue hjoin =>
              rename_i hover
              rw [not_and_or] at hover
              rcases hover with hover | hover
              · exact absurd hjoin hover
              · push_neg at hover
                refine Or.inl ?_
                simp only [List.length_append, List.length_cons, List.length_nil]
                omega
            case isFalse hjoin => exact Or.inr hsec
        · exact ⟨Or.inr hsec, hres⟩

theorem split_fold_secs_inv (data : List PStr) (maxc idx : ℕ) :
    ∀ (secs : List PStr), (∀ l ∈ secs, ∃ page ∈ data, l ∈ split_paragraphs page []) →
    ∀ (st : SplitState), SplitInv data maxc st →
    SplitInv data maxc (secs.foldl (fun st2 line => split_line maxc idx st2 line) st)
  | [], _, _, hst => hst
  | l :: ls, hsecs, st, hst =>
    split_fold_secs_inv data maxc idx ls
      (fun x hx => hsecs x (List.mem_cons_of_mem l hx)) _
      (split_line_inv data maxc idx st l (hsecs l (List.mem_cons_self l ls)) hst)

theorem split_pages_inv (data : List PStr) (maxc : ℕ) :
    ∀ (ps : List (ℕ × PStr)), (∀ p ∈ ps, p.2 ∈ data) →
    ∀ (st : SplitState), SplitInv data maxc st →
    SplitInv data maxc (ps.foldl (fun st p =>
      (split_paragraphs p.2 []).foldl (fun st2 line => split_line maxc p.1 st2 line) st) st)
  | [], _, _, hst => hst
  | p :: ps, hps, st, hst =>
    split_pages_inv data maxc ps
      (fun x hx => hps x (List.mem_cons_of_mem p hx)) _
      (split_fold_secs_inv data maxc p.1 (split_paragraphs p.2 [])
        (fun _l hl => ⟨p.2, hps p (List.mem_cons_self p ps), hl⟩) st hst)

theorem split_run_inv (data : List PStr) (maxc : ℕ) :
    SplitInv data maxc (split_run data maxc) := by
  unfold split_run
  refine split_pages_inv data maxc data.enum ?_ _ ⟨Or.inl (by simp), by simp⟩
  intro p hp
  have h := List.mem_map_of_mem Prod.snd hp
  rw [List.enum_map_snd] at h
  exact h

/-- Claim C4, corrected.  The spec's budget `len(body) ≤ max_chunk_size`
fails: the overflow test compares `len(body) + len(line)` but the join then
inserts an uncounted `"\n\n"`, and a single section longer than the budget
is emitted whole.  What holds instead: every chunk emitted by `split` has
`len(body) ≤ max_chunk_size + 2` or its body is one single (stripped)
double-newline section of one input page; and the heading context in force
at a flush is preserved on continuation chunks — a body-text step never
changes `h1`, `h2`, `h3`, and any chunk it emits carries exactly the
current headings. -/
theorem split_chunk_budget (data : List PStr) (maxc : ℕ) (c : Chunk)
    (hc : c ∈ split data maxc) :
    body_ok data maxc c.body
    ∧ ∀ (st : SplitState) (idx : ℕ) (line : PStr), st.last = 4 →
        pstr_startsWith ['#', ' '] line = false →
        pstr_startsWith ['#', '#', ' '] line = false →
        pstr_startsWith ['#', '#', '#', ' '] line = false →
        (split_line maxc idx st line).h1 = st.h1
        ∧ (split_line maxc idx st line).h2 = st.h2
        ∧ (split_line maxc idx st line).h3 = st.h3
        ∧ ∀ c2 ∈ (split_line maxc idx st line).results,
            c2 ∈ st.results ∨ (c2.h1 = st.h1 ∧ c2.h2 = st.h2 ∧ c2.h3 = st.h3) := by
  constructor
  · have hfin := split_run_inv data maxc
    unfold split at hc
    split at hc
    · rcases List.mem_append.1 hc with h | h
      · exact hfin.2 c h
      · rw [List.mem_singleton.1 h]
        exact hfin.1
    · exact hfin.2 c hc
  · intro st idx line h4 hA hB hC
    unfold split_line
    simp only [hA, hB, hC, Bool.false_eq_true, if_false, h4, if_pos]
    split
    · refine ⟨rfl, rfl, rfl, ?_⟩
      intro c2 hc2
      rcases List.mem_append.1 hc2 with h | h
      · exact Or.inl h
      · rw [List.mem_singleton.1 h]
        exact Or.inr ⟨rfl, rfl, rfl⟩
    · exact ⟨rfl, rfl, rfl, fun c2 hc2 => Or.inl hc2⟩

/-- The claim's stated bound `len(body) ≤ max_chunk_size` is false: on the
single page `"ab\n\ncd"` with `max_chunk_size = 4`, the overflow test
`2 + 2 > 4` does not fire, the two sections are joined with `"\n\n"`, and
the single emitted chunk has a 6-character body. -/
theorem split_chunk_budget_counterexample :
    ((split [['a', 'b', '\n', '\n', 'c', 'd']] 4).map (fun c => c.body.length)) = [6]
    ∧ 4 < 6 := ⟨by decide, by decide⟩

theorem split_chunk_budget_witness :
    body_ok [['a']] 4 (Chunk.body ⟨[], [], [], ['a'], [0]⟩)
    ∧ ∀ (st : SplitState) (idx : ℕ) (line : PStr), st.last = 4 →
        pstr_startsWith ['#', ' '] line = false →
        pstr_startsWith ['#', '#', ' '] line = false →
        pstr_startsWith ['#', '#', '#', ' '] line = false →
        (split_line 4 idx st line).h1 = st.h1
        ∧ (split_line 4 idx st line).h2 = st.h2
        ∧ (split_line 4 idx st line).h3 = st.h3
        ∧ ∀ c2 ∈ (split_line 4 idx st line).results,
            c2 ∈ st.results ∨ (c2.h1 = st.h1 ∧ c2.h2 = st.h2 ∧ c2.h3 = st.h3) :=
  split_chunk_budget [['a']] 4 ⟨[], [], [], ['a'], [0]⟩ (by decide)

/-! ### The three LLM retry loops (C5).

The LLM is a stream of responses indexed by attempt number; each loop's
validity test collapses its parse-and-check chain to a predicate on the
attempt (`_try_get_relations` not `None` plus the list-of-dicts check for
the KG builder; the `eval` schema checks or the string-extraction fallback
for the summariser; the dict/key/type checks for the query).

* `generate_ner_results` (`KG_2_ConvertTextsToGraph.py`): `for _ in
  range(8)` with a `for ... else` that marks the file `is_graph` and skips
  the content; the success path inserts the relations and also marks the
  file.
* `generate_community_information` (`graphRAG_retriever.py`): `for _ in
  range(10)`, on exhaustion `return (0, "", {}, {})`, on success the
  stripped information with the confidence.
* the summary loop of `sum_vertex` (`KG_5_CreateCommunitySummaries.py`):
  `while True` — no bound; modelled with explicit fuel, `none` meaning the
  loop has not exited within `fuel` iterations (attempt counter `k`). -/

def generate_ner_results (valid : ℕ → Bool) : Option ℕ × Bool :=
  match (List.range 8).find? (fun k => valid k) with
  | some k => (some k, true)
  | none => (none, true)

/-- LLM calls the KG builder loop makes: up to and including the first
valid attempt, or all 8. -/
def ner_llm_calls (valid : ℕ → Bool) : ℕ :=
  match (List.range 8).find? (fun k => valid k) with
  | some k => k + 1
  | none => 8

def generate_community_information (resp : ℕ → Option (ℤ × PStr))
    (source document : List PStr) : ℤ × PStr × List PStr × List PStr :=
  match (List.range 10).findSome? resp with
  | some ci => (ci.1, pstr_strip ci.2, source, document)
  | none => (0, [], [], [])

/-- LLM calls the query loop makes. -/
def query_llm_calls (resp : ℕ → Option (ℤ × PStr)) : ℕ :=
  match (List.range 10).find? (fun k => (resp k).isSome) with
  | some k => k + 1
  | none => 10

/-- The `while True` summary loop of `sum_vertex`: the attempt index of the
first accepted response, `none` if the loop is still running after `fuel`
iterations. -/
def sum_vertex_retry (valid : ℕ → Bool) : ℕ → ℕ → Option ℕ
  | 0, _ => none
  | f + 1, k => if valid k then some k else sum_vertex_retry valid f (k + 1)

/-- Claim C5, corrected.  The KG builder's loop makes at most 8 LLM calls
and always marks the file complete (`is_graph`), and the GraphRAG query's
loop makes at most 10 calls and falls back to `(0, "", {}, {})` on
exhaustion — but the community summariser's loop is `while True` with no
bound at all: on a stream in which every response is schema-violating it
has not exited after any number of iterations, so the spec's "retries at
most 10 times … each per-unit retry loop terminates even when every LLM
response is invalid" is false for the summariser. -/
theorem llm_retry_bounds (nv : ℕ → Bool) (resp : ℕ → Option (ℤ × PStr))
    (source document : List PStr) (sv : ℕ → Bool)
    (hsv : ∀ k, sv k = false) :
    ner_llm_calls nv ≤ 8 ∧ (generate_ner_results nv).2 = true
    ∧ query_llm_calls resp ≤ 10
    ∧ ((List.range 10).findSome? resp = none →
        generate_community_information resp source document = (0, [], [], []))
    ∧ ∀ fuel k, sum_vertex_retry sv fuel k = none := by
  refine ⟨?_, ?_, ?_, ?_, ?_⟩
  · unfold ner_llm_calls
    cases h : (List.range 8).find? (fun k => nv k) with
    | none => exact le_refl 8
    | some k =>
      have hk := List.mem_range.1 (List.mem_of_find?_eq_some h)
      show k + 1 ≤ 8
      omega
  · unfold generate_ner_results
    cases h : (List.range 8).find? (fun k => nv k) <;> simp
  · unfold query_llm_calls
    cases h : (List.range 10).find? (fun k => (resp k).isSome) with
    | none => exact le_refl 10
    | some k =>
      have hk := List.mem_range.1 (List.mem_of_find?_eq_some h)
      show k + 1 ≤ 10
      omega
  · intro h
    unfold generate_community_information
    rw [h]
  · intro fuel
    induction fuel with
    | zero => intro k; rfl
    | succ f ih =>
      intro k
      unfold sum_vertex_retry
      rw [hsv k]
      simp only [Bool.false_eq_true, if_false]
      exact ih (k + 1)

/-- The summariser bound the spec states is false: with every response
invalid the `while True` loop of `sum_vertex` is still running after 11
iterations, one more than the claimed 10-retry bound. -/
theorem llm_retry_bounds_counterexample :
    sum_vertex_retry (fun _ => false) 11 0 = none ∧ 10 < 11 :=
  ⟨rfl, by decide⟩

theorem llm_retry_bounds_witness :
    ner_llm_calls (fun _ => false) ≤ 8
    ∧ (generate_ner_results (fun _ => false)).2 = true
    ∧ query_llm_calls (fun _ => none) ≤ 10
    ∧ ((List.range 10).findSome? (fun _ => (none : Option (ℤ × PStr))) = none →
        generate_community_information (fun _ => none) [] [] = (0, [], [], []))
    ∧ ∀ fuel k, sum_vertex_retry (fun _ => false) fuel k = none :=
  llm_retry_bounds (fun _ => false) (fun _ => none) [] [] (fun _ => false)
    (fun _ => rfl)

/-! ### GARAG source-reference accumulation (`_garag_retrieve`, C6/C10).

A kNN hit is its `_score` and its `source_ref` dictionary (insertion-ordered
association list over string keys, which includes the bookkeeping key
`"_total"`).  The loop adds `score * count / source_ref["_total"]` to the
per-file accumulator for every key except `"_total"`, skipping hits whose
score is below the confidence cutoff. -/

def total_key : PStr := ['_', 't', 'o', 't', 'a', 'l']

/-- `d.get(k, default)` on an association list. -/
def dict_get (m : List (PStr × ℚ)) (k : PStr) (d : ℚ) : ℚ :=
  match m.find? (fun e => decide (e.1 = k)) with
  | some e => e.2
  | none => d

/-- `d[k] = d.get(k, 0) + v` on an insertion-ordered association list. -/
def dict_add (m : List (PStr × ℚ)) (k : PStr) (v : ℚ) : List (PStr × ℚ) :=
  if m.any (fun e => decide (e.1 = k)) then
    m.map (fun e => if e.1 = k then (e.1, e.2 + v) else e)
  else m ++ [(k, v)]

/-- The amount one hit adds to the accumulator for source `s` (0 when `s`
is not in its `source_ref`): `community["_score"] * count /
source_ref["_total"]`. -/
def garag_contribution (score : ℚ) (source_ref : List (PStr × ℚ)) (s : PStr) : ℚ :=
  score * dict_get source_ref s 0 / dict_get source_ref total_key 0

/-- The `for source, count in source_ref.items()` loop of one hit. -/
def garag_add_hit (acc : List (PStr × ℚ)) (score : ℚ)
    (source_ref : List (PStr × ℚ)) : List (PStr × ℚ) :=
  source_ref.foldl (fun a e =>
    if e.1 = total_key then a
    else dict_add a e.1 (score * e.2 / dict_get source_ref total_key 0)) acc

/-- The accumulation over all kNN hits with the confidence cutoff. -/
def garag_accumulate (cutoff : ℚ) (hits : List (ℚ × List (PStr × ℚ))) :
    List (PStr × ℚ) :=
  hits.foldl (fun a h => if h.1 < cutoff then a else garag_add_hit a h.1 h.2) []

/-- Claim C6, corrected.  A higher score alone does not give a higher
contribution: the contribution is `score * count / _total`, so it also
scales with the hit's own `count / _total` ratio, and a lower-scored hit
with a larger ratio contributes more (see the counterexample).  What holds:
for two hits above the cutoff whose `source_ref` maps give source `s` the
same positive `count / _total` ratio, the strictly higher-scored hit
contributes strictly more to `s`. -/
theorem garag_contribution_monotone
    (cutoff sA sB : ℚ) (srA srB : List (PStr × ℚ)) (s : PStr)
    (_hA : cutoff ≤ sA) (_hB : cutoff ≤ sB) (hs : sB < sA)
    (hr : dict_get srA s 0 / dict_get srA total_key 0
        = dict_get srB s 0 / dict_get srB total_key 0)
    (hpos : 0 < dict_get srB s 0 / dict_get srB total_key 0) :
    garag_contribution sB srB s < garag_contribution sA srA s := by
  unfold garag_contribution
  rw [mul_div_assoc, mul_div_assoc, hr]
  exact mul_lt_mul_of_pos_right hs hpos

/-- The spec's monotonicity is false: hit A with score 1/2 and
`source_ref = {s: 1, _total: 10}` contributes `1/20`, hit B with the lower
score 1/4 and `{s: 1, _total: 1}` contributes `1/4 > 1/20`; both scores
pass the cutoff 1/25. -/
theorem garag_contribution_counterexample :
    (1 : ℚ)/25 ≤ 1/2 ∧ (1 : ℚ)/25 ≤ 1/4 ∧ (1 : ℚ)/4 < 1/2
    ∧ garag_contribution (1/2) [(['s'], 1), (total_key, 10)] ['s']
      < garag_contribution (1/4) [(['s'], 1), (total_key, 1)] ['s'] := by
  have ha : dict_get [(['s'], 1), (total_key, 10)] ['s'] 0 = 1 := by decide
  have hb : dict_get [(['s'], 1), (total_key, 10)] total_key 0 = 10 := by decide
  have hc : dict_get [(['s'], 1), (total_key, 1)] ['s'] 0 = 1 := by decide
  have hd : dict_get [(['s'], 1), (total_key, 1)] total_key 0 = 1 := by decide
  unfold garag_contribution
  rw [ha, hb, hc, hd]
  norm_num

theorem garag_contribution_monotone_witness :
    (0 : ℚ) ≤ 1/2 ∧ (0 : ℚ) ≤ 1/4 ∧ (1 : ℚ)/4 < 1/2
    ∧ dict_get [(['s'], 1), (total_key, 2)] ['s'] 0
        / dict_get [(['s'], 1), (total_key, 2)] total_key 0
      = dict_get [(['s'], 2), (total_key, 4)] ['s'] 0
        / dict_get [(['s'], 2), (total_key, 4)] total_key 0
    ∧ (0 : ℚ) < dict_get [(['s'], 2), (total_key, 4)] ['s'] 0
        / dict_get [(['s'], 2), (total_key, 4)] total_key 0
    ∧ garag_contribution (1/4) [(['s'], 2), (total_key, 4)] ['s']
      < garag_contribution (1/2) [(['s'], 1), (total_key, 2)] ['s'] := by
  have ha : dict_get [(['s'], 1), (total_key, 2)] ['s'] 0 = 1 := by decide
  have hb : dict_get [(['s'], 1), (total_key, 2)] total_key 0 = 2 := by decide
  have hc : dict_get [(['s'], 2), (total_key, 4)] ['s'] 0 = 2 := by decide
  have hd : dict_get [(['s'], 2), (total_key, 4)] total_key 0 = 4 := by decide
  have hr : dict_get [(['s'], 1), (total_key, 2)] ['s'] 0
        / dict_get [(['s'], 1), (total_key, 2)] total_key 0
      = dict_get [(['s'], 2), (total_key, 4)] ['s'] 0
        / dict_get [(['s'], 2), (total_key, 4)] total_key 0 := by
    rw [ha, hb, hc, hd]; norm_num
  have hpos : (0 : ℚ) < dict_get [(['s'], 2), (total_key, 4)] ['s'] 0
        / dict_get [(['s'], 2), (total_key, 4)] total_key 0 := by
    rw [hc, hd]; norm_num
  exact ⟨by norm_num, by norm_num, by norm_num, hr, hpos,
    garag_contribution_monotone 0 (1/2) (1/4)
      [(['s'], 1), (total_key, 2)] [(['s'], 2), (total_key, 4)] ['s']
      (by norm_num) (by norm_num) (by norm_num) hr hpos⟩

/-! ### KG relation sanitisation (`_insert_relations`, C7).

A candidate from the LLM is `junk` (not a dict, or `From`/`To`/`Relation`
missing — both are skipped the same way) or its three field strings.  The
cleaning first maps every space to `_`, then deletes every character
outside the class `[A-Za-z0-9_\-.@()+=;$!*%:,}{\]["]`; a relation whose
cleaned fields have an empty string or equal endpoints is dropped.  The
ArangoDB writes are abstracted to the list of persisted
`(From, To, Relation)` triples. -/

inductive RelCand : Type where
  | junk : RelCand
  | fields (f t r : PStr) : RelCand

/-- Membership in the regex class `[A-Za-z0-9_\-.@()+=;$!*%:,}{\]["]`
(`Char.ofNat 123/125/34` are the two braces and the double quote). -/
def allowed_char (c : Char) : Bool :=
  c.isAlphanum || c = '_' || c = '-' || c = '.' || c = '@' || c = '(' || c = ')'
    || c = '+' || c = '=' || c = ';' || c = '$' || c = '!' || c = '*' || c = '%'
    || c = ':' || c = ',' || c = Char.ofNat 125 || c = Char.ofNat 123 || c = ']'
    || c = '[' || c = Char.ofNat 34

/-- `sub(r'[^...]+', '', s.replace(" ", "_"))`. -/
def sanitize (s : PStr) : PStr :=
  (s.map (fun c => if c = ' ' then '_' else c)).filter allowed_char

/-- The relation triples `_insert_relations` persists. -/
def insert_relations (relations : List RelCand) : List (PStr × PStr × PStr) :=
  relations.foldl (fun acc r =>
    match r with
    | .junk => acc
    | .fields f t rl =>
      if sanitize f = [] ∨ sanitize t = [] ∨ sanitize rl = [] then acc
      else if sanitize f = sanitize t then acc
      else acc ++ [(sanitize f, sanitize t, sanitize rl)]) []

/-- The invariant of one persisted triple. -/
def SanitisedTriple (e : PStr × PStr × PStr) : Prop :=
  e.1 ≠ [] ∧ e.2.1 ≠ [] ∧ e.2.2 ≠ []
  ∧ (∀ c ∈ e.1, allowed_char c = true)
  ∧ (∀ c ∈ e.2.1, allowed_char c = true)
  ∧ (∀ c ∈ e.2.2, allowed_char c = true)
  ∧ e.1 ≠ e.2.1

theorem insert_relations_fold_inv (rels : List RelCand) :
    ∀ (acc : List (PStr × PStr × PStr)), (∀ e ∈ acc, SanitisedTriple e) →
    ∀ e ∈ rels.foldl (fun acc r =>
      match r with
      | .junk => acc
      | .fields f t rl =>
        if sanitize f = [] ∨ sanitize t = [] ∨ sanitize rl = [] then acc
        else if sanitize f = sanitize t then acc
        else acc ++ [(sanitize f, sanitize t, sanitize rl)]) acc, SanitisedTriple e := by
  induction rels with
  | nil => intro acc hacc; exact hacc
  | cons r rels ih =>
    intro acc hacc
    refine ih _ ?_
    match r with
    | .junk => exact hacc
    | .fields f t rl =>
      dsimp only
      split
      · exact hacc
      · split
        · exact hacc
        · rename_i hne heq
          intro e he
          rcases List.mem_append.1 he with h | h
          · exact hacc e h
          · rw [List.mem_singleton.1 h]
            rw [not_or, not_or] at hne
            exact ⟨hne.1, hne.2.1, hne.2.2,
              fun c hc => List.of_mem_filter hc,
              fun c hc => List.of_mem_filter hc,
              fun c hc => List.of_mem_filter hc, heq⟩

/-- Claim C7 (KG sanitisation invariant): every relation `_insert_relations`
persists has non-empty `From`, `To` and `Relation` strings made only of
characters from the allowed class after whitespace was mapped to
underscore, and no persisted `Relation` edge is a self-loop (the sanitised
`From` differs from the sanitised `To`). -/
theorem kg_sanitisation_invariant (relations : List RelCand)
    (e : PStr × PStr × PStr) (he : e ∈ insert_relations relations) :
    SanitisedTriple e := by
  unfold insert_relations at he
  exact insert_relations_fold_inv relations [] (by simp) e he

theorem kg_sanitisation_invariant_witness :
    SanitisedTriple (['a'], ['b'], ['r']) :=
  kg_sanitisation_invariant [RelCand.fields ['a'] ['b'] ['r']]
    (['a'], ['b'], ['r']) (by decide)

/-! ### The PNG predictor of the PDF parser (`pdfParser.predictor`, C8).

Byte strings are `List ℕ` with arithmetic `% 256` where the source wraps.
Raising `NotImplementedError` is `none`.  The function pads the data with
`columns` zero bytes, cuts rows of `columns + 1` bytes (a filter-type tag
byte, then the row), drops the last row, and dispatches on the predictor
value: 1 passthrough, 2 (TIFF) rejected, 10 None, 11 Sub, 12 Up,
13 Average, anything else (including 14 Paeth) rejected. -/

def chunk_rows_fuel : ℕ → List ℕ → ℕ → List (ℕ × List ℕ)
  | 0, _, _ => []
  | _, [], _ => []
  | f + 1, b :: rest, columns =>
    (b, rest.take columns) :: chunk_rows_fuel f (rest.drop columns) columns

/-- `[(data[i], data[i+1 : i+columns+1]) for i in range(0, len(data),
columns+1)]` (the fuel is an upper bound on the row count; each step
consumes at least one byte). -/
def chunk_rows (data : List ℕ) (columns : ℕ) : List (ℕ × List ℕ) :=
  chunk_rows_fuel data.length data columns

/-- The predictor-11 row loop: `prior = (prior + value) % 256` then
`data.append(value)` — the state is (emitted bytes, prior). -/
def sub_row (line : List ℕ) : List ℕ :=
  (line.foldl (fun (s : List ℕ × ℕ) value =>
    (s.1 ++ [value], (s.2 + value) % 256)) ([], 0)).1

/-- The predictor-12 row loop: `up[i] = (up[i] + line[i]) % 256` and the
new `up[i]` is appended; the returned row is the updated `up` array. -/
def up_row (up line : List ℕ) (columns : ℕ) : List ℕ :=
  (List.range columns).foldl
    (fun u i => u.set i ((u.getD i 0 + line.getD i 0) % 256)) up

def up_rows (columns : ℕ) : List (List ℕ) → List ℕ → List ℕ
  | [], _ => []
  | line :: rest, up => up_row up line columns ++ up_rows columns rest (up_row up line columns)

/-- The predictor-13 row loop: `up[i] = (line[i] + (prior + up[i]) // 2) %
256; prior = up[i]`; the state is (the `up` array, prior). -/
def avg_row (up line : List ℕ) (columns : ℕ) : List ℕ :=
  ((List.range columns).foldl (fun (s : List ℕ × ℕ) i =>
    ((s.1.set i ((line.getD i 0 + (s.2 + s.1.getD i 0) / 2) % 256)),
      (line.getD i 0 + (s.2 + s.1.getD i 0) / 2) % 256)) (up, 0)).1

def avg_rows (columns : ℕ) : List (List ℕ) → List ℕ → List ℕ
  | [], _ => []
  | line :: rest, up => avg_row up line columns ++ avg_rows columns rest (avg_row up line columns)

def predictor (data : List ℕ) (pred colors bits columns : ℕ) : Option (List ℕ) :=
  if colors ≠ 1 then none
  else if bits ≠ 8 then none
  else if pred = 1 then some data
  else if pred = 2 then none
  else
    let rows := (chunk_rows (data ++ List.replicate columns 0) columns).dropLast
    if pred = 10 then some ((rows.map (fun r => r.2)).flatten)
    else if pred = 11 then some ((rows.map (fun r => sub_row r.2)).flatten)
    else if pred = 12 then some (up_rows columns (rows.map (fun r => r.2)) (List.replicate columns 0))
    else if pred = 13 then some (avg_rows columns (rows.map (fun r => r.2)) (List.replicate columns 0))
    else none

/-- Spec-modelled (the claim's words, not the code): the true PNG Sub
reconstruction for one-byte pixels — each output byte is the running sum of
the filtered byte and the previous reconstructed byte of the row. -/
def sub_spec_row (line : List ℕ) : List ℕ :=
  (line.foldl (fun (s : List ℕ × ℕ) v =>
    (s.1 ++ [(s.2 + v) % 256], (s.2 + v) % 256)) ([], 0)).1

theorem sub_row_aux (l : List ℕ) : ∀ (acc : List ℕ) (p : ℕ),
    (l.foldl (fun (s : List ℕ × ℕ) value =>
      (s.1 ++ [value], (s.2 + value) % 256)) (acc, p)).1 = acc ++ l := by
  induction l with
  | nil => intro acc p; simp
  | cons v t ih =>
    intro acc p
    simp only [List.foldl_cons]
    rw [ih]
    simp

/-- The predictor-11 loop appends the raw filtered byte: `prior` is
computed but never used, so the emitted row is the input row. -/
theorem sub_row_id (l : List ℕ) : sub_row l = l := by
  unfold sub_row
  rw [sub_row_aux l [] 0]
  simp

theorem up_row_fold_aux (line : List ℕ) (columns : ℕ) (up : List ℕ)
    (hup : up.length = columns) :
    ∀ n, n ≤ columns →
    (List.range n).foldl (fun u i => u.set i ((u.getD i 0 + line.getD i 0) % 256)) up
      = (List.range n).map (fun i => (up.getD i 0 + line.getD i 0) % 256) ++ up.drop n := by
  intro n
  induction n with
  | zero => intro _; simp
  | succ n ih =>
    intro hn
    have hn2 : n ≤ columns := Nat.le_of_succ_le hn
    have hlt : n < up.length := by omega
    have hM : ((List.range n).map (fun i => (up.getD i 0 + line.getD i 0) % 256)).length = n := by
      simp
    rw [List.range_succ, List.foldl_append, List.map_append, ih hn2]
    simp only [List.foldl_cons, List.foldl_nil, List.map_cons, List.map_nil]
    have hgd : (((List.range n).map (fun i => (up.getD i 0 + line.getD i 0) % 256))
        ++ up.drop n).getD n 0 = up.getD n 0 := by
      rw [List.getD_append_right _ _ _ _ (by omega), hM, Nat.sub_self,
        List.drop_eq_getElem_cons hlt]
      rw [List.getD_eq_getElem up 0 hlt]
      rfl
    rw [hgd, List.set_append, if_neg (by omega), hM, Nat.sub_self,
      List.drop_eq_getElem_cons hlt, List.set_cons_zero]
    simp

/-- The predictor-12 loop computes the textbook Up reconstruction: entry
`i` of the emitted row is `(up[i] + line[i]) % 256`. -/
theorem up_row_spec (line : List ℕ) (columns : ℕ) (up : List ℕ)
    (hup : up.length = columns) :
    up_row up line columns
      = (List.range columns).map (fun i => (up.getD i 0 + line.getD i 0) % 256) := by
  unfold up_row
  rw [up_row_fold_aux line columns up hup columns (le_refl columns), ← hup,
    List.drop_length, List.append_nil]

/-- Spec-modelled (the claim's words, not the code): the textbook PNG
Average reconstruction of one row for 8-bit single-channel pixels — entry
`i` is `(raw[i] + (left + above) / 2) % 256`, where `above` reads the
previous reconstructed row (`up`) and `left` is the previous reconstructed
byte of this row (0 at the start).  Arguments after `line`: the running
`left`, the column index, and the number of remaining columns. -/
def avg_spec_from (up line : List ℕ) : ℕ → ℕ → ℕ → List ℕ
  | _, _, 0 => []
  | prior, i, n + 1 =>
    (line.getD i 0 + (prior + up.getD i 0) / 2) % 256
      :: avg_spec_from up line ((line.getD i 0 + (prior + up.getD i 0) / 2) % 256) (i + 1) n

def avg_spec_row (up line : List ℕ) (columns : ℕ) : List ℕ :=
  avg_spec_from up line 0 0 columns

theorem avg_row_fold_aux (line : List ℕ) (columns : ℕ) (up : List ℕ)
    (hup : up.length = columns) :
    ∀ (n i prior : ℕ) (M : List ℕ), M.length = i → i + n = columns →
    ((List.range' i n).foldl (fun (s : List ℕ × ℕ) j =>
        ((s.1.set j ((line.getD j 0 + (s.2 + s.1.getD j 0) / 2) % 256)),
          (line.getD j 0 + (s.2 + s.1.getD j 0) / 2) % 256)) (M ++ up.drop i, prior)).1
      = M ++ avg_spec_from up line prior i n := by
  intro n
  induction n with
  | zero =>
    intro i prior M hM hic
    have hi : i = up.length := by omega
    rw [hi, List.drop_length]
    simp [avg_spec_from]
  | succ n ih =>
    intro i prior M hM hic
    have hlt : i < up.length := by omega
    rw [List.range'_succ, List.foldl_cons]
    dsimp only
    have hgd : (M ++ up.drop i).getD i 0 = up.getD i 0 := by
      rw [List.getD_append_right _ _ _ _ (by omega), hM, Nat.sub_self,
        List.drop_eq_getElem_cons hlt]
      rw [List.getD_eq_getElem up 0 hlt]
      rfl
    rw [hgd, List.set_append, if_neg (by omega), hM, Nat.sub_self,
      List.drop_eq_getElem_cons hlt, List.set_cons_zero]
    rw [show M ++ ((line.getD i 0 + (prior + up.getD i 0) / 2) % 256 :: List.drop (i + 1) up)
        = (M ++ [(line.getD i 0 + (prior + up.getD i 0) / 2) % 256]) ++ List.drop (i + 1) up
      by simp]
    rw [ih (i + 1) ((line.getD i 0 + (prior + up.getD i 0) / 2) % 256)
      (M ++ [(line.getD i 0 + (prior + up.getD i 0) / 2) % 256]) (by simp [hM]) (by omega)]
    show _ = M ++ ((line.getD i 0 + (prior + up.getD i 0) / 2) % 256
      :: avg_spec_from up line ((line.getD i 0 + (prior + up.getD i 0) / 2) % 256) (i + 1) n)
    simp

/-- The predictor-13 loop computes the textbook Average reconstruction:
the emitted row equals `avg_spec_row` of the raw row over the previous
reconstructed row. -/
theorem avg_row_spec (line : List ℕ) (columns : ℕ) (up : List ℕ)
    (hup : up.length = columns) :
    avg_row up line columns = avg_spec_row up line columns := by
  unfold avg_row avg_spec_row
  rw [List.range_eq_range']
  have h := avg_row_fold_aux line columns up hup columns 0 0 [] rfl (by omega)
  simpa using h

/-- Claim C8, corrected.  The predictor dispatch rejects Paeth instead of
decoding it (`predictor == 14` falls into the `NotImplementedError` else),
and the Sub branch (11) appends the raw filtered byte — its `prior`
accumulator is dead — so Sub streams come out identical to the None branch
(10), not reconstructed.  What holds: `colors != 1` or `bits != 8` raise;
1 is passthrough; 2 (TIFF) raises; 10 concatenates the raw rows; 12 is the
textbook Up reconstruction `(up[i] + line[i]) % 256`; 13 is the textbook
Average reconstruction `(raw[i] + (left + above) / 2) % 256` with the
chained `left`. -/
theorem png_predictor_decoding (data : List ℕ) (columns pred colors bits : ℕ) :
    (colors ≠ 1 → predictor data pred colors bits columns = none)
    ∧ (bits ≠ 8 → predictor data pred 1 bits columns = none)
    ∧ predictor data 1 1 8 columns = some data
    ∧ predictor data 2 1 8 columns = none
    ∧ predictor data 14 1 8 columns = none
    ∧ predictor data 11 1 8 columns = predictor data 10 1 8 columns
    ∧ (∀ up line, up.length = columns →
        up_row up line columns
          = (List.range columns).map (fun i => (up.getD i 0 + line.getD i 0) % 256))
    ∧ ∀ up line, up.length = columns →
        avg_row up line columns = avg_spec_row up line columns := by
  refine ⟨?_, ?_, rfl, rfl, rfl, ?_, ?_, ?_⟩
  · intro h
    unfold predictor
    rw [if_pos h]
  · intro h
    unfold predictor
    rw [if_neg (by simp), if_pos h]
  · show some (((chunk_rows (data ++ List.replicate columns 0) columns).dropLast.map
        (fun r => sub_row r.2)).flatten)
      = some (((chunk_rows (data ++ List.replicate columns 0) columns).dropLast.map
        (fun r => r.2)).flatten)
    simp only [sub_row_id]
  · intro up line h
    exact up_row_spec line columns up h
  · intro up line h
    exact avg_row_spec line columns up h

/-- The claim's Paeth and Sub behaviour is false: predictor 14 on a
Flate-decoded stream raises `NotImplementedError` (here `none`), and the
Sub branch on the stream `[1, 1, 0]` with 2 columns emits the raw filtered
row `[1, 0]` where the PNG Sub reconstruction of that row is `[1, 1]`. -/
theorem png_predictor_counterexample :
    predictor [1, 1, 0] 14 1 8 2 = none
    ∧ predictor [1, 1, 0] 11 1 8 2 = some [1, 0]
    ∧ sub_spec_row [1, 0] = [1, 1]
    ∧ ([1, 0] : List ℕ) ≠ [1, 1] := ⟨rfl, rfl, rfl, by decide⟩

/-! ### Loader traversal (`_load_file` / `extracted_zip`, C9).

`_load_file(config, file_path, arango_client, elastic_tuple,
max_chunk_size)` takes five required positional parameters, but both
recursive calls (directory branch and zip branch) pass only three
(`_load_file(path, arango_client, elastic_tuple)`), so recursing into any
non-empty directory raises `TypeError` before loading anything; and
`extracted_zip` passes the `TemporaryDirectory` *object* (not its path) to
`ZipFile.extractall`, which raises `TypeError`, and has no `try/finally`
around its `yield`, so `cleanup()` is not reached on that error path.

The embedding mirrors those control paths: an entry is a parseable file
(name and page contents), a directory, or a zip; the result records the
chunks inserted, whether a `TypeError` escaped, and how many temporary
directories were created but not cleaned up. -/

inductive FsEntry : Type where
  | file (name : PStr) (pages : List PStr) : FsEntry
  | dir (name : PStr) (entries : List FsEntry) : FsEntry
  | zipf (name : PStr) (entries : List FsEntry) : FsEntry

structure LoadResult where
  chunks : List Chunk
  typeErr : Bool
  leaked : ℕ
deriving DecidableEq

def load_file (maxc : ℕ) : FsEntry → LoadResult
  | .file name pages =>
    if pstr_startsWith ['~', '$'] name then ⟨[], false, 0⟩
    else ⟨split pages maxc, false, 0⟩
  | .dir name entries =>
    if pstr_startsWith ['~', '$'] name then ⟨[], false, 0⟩
    else match entries with
      | [] => ⟨[], false, 0⟩
      | _ :: _ => ⟨[], true, 0⟩
  | .zipf name _ =>
    if pstr_startsWith ['~', '$'] name then ⟨[], false, 0⟩
    else ⟨[], true, 1⟩

/-- Claim C9 (code bug): `~$`-prefixed entries are ignored as specified,
but a non-empty directory is not loaded recursively — the first recursive
call raises `TypeError` (two required positional arguments missing) and no
contained entry is parsed — and a `.zip` is not extracted-and-loaded: the
`extractall` call on the `TemporaryDirectory` object raises `TypeError`
and the temporary directory's `cleanup()` is never reached on that exit
path. -/
theorem load_file_traversal_bug :
    (load_file 4096 (FsEntry.file (['~', '$'] ++ ['a']) [['x']])).chunks = []
    ∧ (load_file 4096 (FsEntry.file (['~', '$'] ++ ['a']) [['x']])).typeErr = false
    ∧ (load_file 4096 (FsEntry.dir ['d'] [FsEntry.file ['a'] [['x']]])).typeErr = true
    ∧ (load_file 4096 (FsEntry.dir ['d'] [FsEntry.file ['a'] [['x']]])).chunks = []
    ∧ (load_file 4096 (FsEntry.zipf ['z'] [])).typeErr = true
    ∧ (load_file 4096 (FsEntry.zipf ['z'] [])).leaked = 1 :=
  ⟨rfl, rfl, rfl, rfl, rfl, rfl⟩

/-! ### The four retrieval strategies' result tails (C10).

A `RetrievalAnswer` keeps the fields the claim mentions (`name`, `type`,
`matchedContent`); `category`, `path`, `surroundingContent` and `links`
are constants or bookkeeping.  Every strategy sorts its candidates by
score descending (`sorted(..., reverse = True)`), collects answers, and
replaces an empty collection by the single `NO DOCUMENTS FOUND` sentinel
of type `NONE` with empty content.  GraphRAG additionally stops adding
after `max_matches` and breaks at the first score below the cutoff (the
post-LLM loop); the two naive strategies break at the first score below
the cutoff; GARAG applies the cutoff during accumulation and then takes
`max(1, max_matches)` of the sorted per-file scores (`content` maps a file
key to the stored chunk content). -/

inductive AllowedTypes : Type where
  | TEXT : AllowedTypes
  | NONE : AllowedTypes
deriving DecidableEq

structure RetrievalAnswer where
  name : PStr
  type : AllowedTypes
  matchedContent : PStr
deriving DecidableEq

def no_documents_found : RetrievalAnswer :=
  ⟨['N', 'O', ' ', 'D', 'O', 'C', 'U', 'M', 'E', 'N', 'T', 'S', ' ',
    'F', 'O', 'U', 'N', 'D'], AllowedTypes.NONE, []⟩

/-- `_graph_rag_retrieve` after the per-community LLM answers
`(confidence, information-name, information)` are in. -/
def graph_rag_retrieve (informations : List (ℚ × PStr × PStr)) (m : ℕ)
    (cutoff : ℚ) : List RetrievalAnswer :=
  if (((informations.mergeSort (fun a b => decide (b.1 ≤ a.1))).takeWhile
        (fun i => decide (cutoff ≤ i.1))).foldl
      (fun rs i => if rs.length < m then
        rs ++ [(⟨i.2.1, AllowedTypes.TEXT, i.2.2⟩ : RetrievalAnswer)] else rs) []).length = 0 then [no_documents_found]
  else ((informations.mergeSort (fun a b => decide (b.1 ≤ a.1))).takeWhile
        (fun i => decide (cutoff ≤ i.1))).foldl
      (fun rs i => if rs.length < m then
        rs ++ [(⟨i.2.1, AllowedTypes.TEXT, i.2.2⟩ : RetrievalAnswer)] else rs) []

/-- `_naive_graph_rag_retrieve` after the kNN search: hits are
`(score, source-name, content)`. -/
def naive_graph_rag_retrieve (hits : List (ℚ × PStr × PStr))
    (cutoff : ℚ) : List RetrievalAnswer :=
  if (((hits.mergeSort (fun a b => decide (b.1 ≤ a.1))).takeWhile
        (fun c => decide (cutoff ≤ c.1))).map
      (fun c => (⟨c.2.1, AllowedTypes.TEXT, c.2.2⟩ : RetrievalAnswer))).length = 0
  then [no_documents_found]
  else ((hits.mergeSort (fun a b => decide (b.1 ≤ a.1))).takeWhile
        (fun c => decide (cutoff ≤ c.1))).map
      (fun c => (⟨c.2.1, AllowedTypes.TEXT, c.2.2⟩ : RetrievalAnswer))

/-- `_naive_rag_retrieve` — the same tail as the naive GraphRAG strategy,
duplicated in the source. -/
def naive_rag_retrieve (hits : List (ℚ × PStr × PStr))
    (cutoff : ℚ) : List RetrievalAnswer :=
  if (((hits.mergeSort (fun a b => decide (b.1 ≤ a.1))).takeWhile
        (fun c => decide (cutoff ≤ c.1))).map
      (fun c => (⟨c.2.1, AllowedTypes.TEXT, c.2.2⟩ : RetrievalAnswer))).length = 0
  then [no_documents_found]
  else ((hits.mergeSort (fun a b => decide (b.1 ≤ a.1))).takeWhile
        (fun c => decide (cutoff ≤ c.1))).map
      (fun c => (⟨c.2.1, AllowedTypes.TEXT, c.2.2⟩ : RetrievalAnswer))

/-- `_garag_retrieve` after the kNN search: accumulate with the cutoff,
sort the per-file scores descending, keep `max(1, max_matches)` (the
counter starts at the clamped `max_matches` and breaks at 0). -/
def garag_retrieve (ghits : List (ℚ × List (PStr × ℚ))) (content : PStr → PStr)
    (m : ℕ) (cutoff : ℚ) : List RetrievalAnswer :=
  if ((((garag_accumulate cutoff ghits).mergeSort
        (fun a b => decide (b.2 ≤ a.2))).take (max 1 m)).map
      (fun s => (⟨s.1, AllowedTypes.TEXT, content s.1⟩ : RetrievalAnswer))).length = 0
  then [no_documents_found]
  else (((garag_accumulate cutoff ghits).mergeSort
        (fun a b => decide (b.2 ≤ a.2))).take (max 1 m)).map
      (fun s => (⟨s.1, AllowedTypes.TEXT, content s.1⟩ : RetrievalAnswer))

theorem takeWhile_cutoff_nil (cutoff : ℚ) (l : List (ℚ × PStr × PStr))
    (hl : ∀ i ∈ l, i.1 < cutoff) :
    (l.mergeSort (fun a b => decide (b.1 ≤ a.1))).takeWhile
      (fun i => decide (cutoff ≤ i.1)) = [] := by
  cases h : l.mergeSort (fun a b => decide (b.1 ≤ a.1)) with
  | nil => rfl
  | cons a t =>
    have ha : a ∈ l := List.mem_mergeSort.1 (h ▸ List.mem_cons_self a t)
    have hna : ¬ (decide (cutoff ≤ a.1) = true) := by
      simpa using not_le.2 (hl a ha)
    rw [List.takeWhile_cons, if_neg hna]

theorem garag_accumulate_nil (cutoff : ℚ) (ghits : List (ℚ × List (PStr × ℚ)))
    (hg : ∀ h ∈ ghits, h.1 < cutoff) : garag_accumulate cutoff ghits = [] := by
  unfold garag_accumulate
  suffices haux : ∀ (l : List (ℚ × List (PStr × ℚ))), (∀ h ∈ l, h.1 < cutoff) →
      ∀ acc, l.foldl (fun a h => if h.1 < cutoff then a else garag_add_hit a h.1 h.2) acc
        = acc by
    exact haux ghits hg []
  intro l
  induction l with
  | nil => intro _ acc; rfl
  | cons x t ih =>
    intro hl acc
    simp only [List.foldl_cons]
    rw [if_pos (hl x (List.mem_cons_self x t))]
    exact ih (fun y hy => hl y (List.mem_cons_of_mem x hy)) acc

/-- Claim C10: every retrieval strategy returns a non-empty list of
records, and when no candidate passes the confidence cutoff each strategy
returns exactly the single `NO DOCUMENTS FOUND` sentinel of type `NONE`
with empty `matchedContent` instead of an empty list. -/
theorem retrievers_sentinel
    (i0 n0 r0 : List (ℚ × PStr × PStr)) (g0 : List (ℚ × List (PStr × ℚ)))
    (informations hits1 hits2 : List (ℚ × PStr × PStr))
    (ghits : List (ℚ × List (PStr × ℚ))) (content : PStr → PStr)
    (m : ℕ) (cutoff : ℚ)
    (hinf : ∀ i ∈ informations, i.1 < cutoff)
    (hh1 : ∀ i ∈ hits1, i.1 < cutoff)
    (hh2 : ∀ i ∈ hits2, i.1 < cutoff)
    (hg : ∀ h ∈ ghits, h.1 < cutoff) :
    graph_rag_retrieve i0 m cutoff ≠ []
    ∧ naive_graph_rag_retrieve n0 cutoff ≠ []
    ∧ naive_rag_retrieve r0 cutoff ≠ []
    ∧ garag_retrieve g0 content m cutoff ≠ []
    ∧ graph_rag_retrieve informations m cutoff = [no_documents_found]
    ∧ naive_graph_rag_retrieve hits1 cutoff = [no_documents_found]
    ∧ naive_rag_retrieve hits2 cutoff = [no_documents_found]
    ∧ garag_retrieve ghits content m cutoff = [no_documents_found] := by
  refine ⟨?_, ?_, ?_, ?_, ?_, ?_, ?_, ?_⟩
  · unfold graph_rag_retrieve
    split
    · simp
    · rename_i hlen
      intro hemp
      exact hlen (by rw [hemp]; rfl)
  · unfold naive_graph_rag_retrieve
    split
    · simp
    · rename_i hlen
      intro hemp
      exact hlen (by rw [hemp]; rfl)
  · unfold naive_rag_retrieve
    split
    · simp
    · rename_i hlen
      intro hemp
      exact hlen (by rw [hemp]; rfl)
  · unfold garag_retrieve
    split
    · simp
    · rename_i hlen
      intro hemp
      exact hlen (by rw [hemp]; rfl)
  · unfold graph_rag_retrieve
    rw [takeWhile_cutoff_nil cutoff informations hinf]
    rfl
  · unfold naive_graph_rag_retrieve
    rw [takeWhile_cutoff_nil cutoff hits1 hh1]
    rfl
  · unfold naive_rag_retrieve
    rw [takeWhile_cutoff_nil cutoff hits2 hh2]
    rfl
  · unfold garag_retrieve
    rw [garag_accumulate_nil cutoff ghits hg, List.mergeSort_nil, List.take_nil]
    rfl

theorem retrievers_sentinel_witness :
    graph_rag_retrieve [] 10 (1/25) ≠ []
    ∧ naive_graph_rag_retrieve [] (1/25) ≠ []
    ∧ naive_rag_retrieve [] (1/25) ≠ []
    ∧ garag_retrieve [] (fun _ => []) 10 (1/25) ≠ []
    ∧ graph_rag_retrieve [] 10 (1/25) = [no_documents_found]
    ∧ naive_graph_rag_retrieve [] (1/25) = [no_documents_found]
    ∧ naive_rag_retrieve [] (1/25) = [no_documents_found]
    ∧ garag_retrieve [] (fun _ => []) 10 (1/25) = [no_documents_found] :=
  retrievers_sentinel [] [] [] [] [] [] [] [] (fun _ => []) 10 (1/25)
    (fun i hi => absurd hi (List.not_mem_nil i))
    (fun i hi => absurd hi (List.not_mem_nil i))
    (fun i hi => absurd hi (List.not_mem_nil i))
    (fun h hh => absurd hh (List.not_mem_nil h))
